import Mathlib

/-!
# Tracked-changes validation — shallow embedding

This file embeds the tracked-changes validators of the repository:

* `scripts/validation/redlining.py` — `RedliningValidator`: removes one
  author's (`"Claude"`'s) tracked changes from a parsed WordprocessingML
  tree and compares the text projections of the edited and the original
  document.
* `scripts/validation/docx.py` — `DOCXSchemaValidator`: the whitespace
  preservation check, the deletion check, the paragraph-count comparison
  and the orchestrating `validate` method.

XML trees are modelled after `xml.etree.ElementTree` elements: a
namespaced tag, an attribute list, optional element text and an ordered
child list.  Tail text is omitted: the validators never read `.tail`.
The Python passes that mutate a tree in place are modelled as pure
functions from the tree before the call to the tree after the call.
-/

/-- An in-memory XML element, mirroring `xml.etree.ElementTree.Element`:
a (namespace-qualified) tag, the attribute map as an association list with
unique keys, the element's text, and the ordered list of child elements. -/
inductive XNode : Type where
  | mk (tag : String) (attrs : List (String × String)) (text : Option String)
      (children : List XNode)

namespace XNode

/-- The element's tag (`elem.tag`). -/
def tag : XNode → String
  | mk g _ _ _ => g

/-- The element's attributes (`elem.attrib`). -/
def attrs : XNode → List (String × String)
  | mk _ a _ _ => a

/-- The element's text (`elem.text`); `none` when absent. -/
def text : XNode → Option String
  | mk _ _ x _ => x

/-- The element's ordered children (`list(elem)`). -/
def children : XNode → List XNode
  | mk _ _ _ cs => cs

end XNode

/-- Attribute lookup (`elem.get(key)`): first binding of the key.
Parsed XML attribute maps bind each key at most once. -/
def attrGet : List (String × String) → String → Option String
  | [], _ => none
  | (k, v) :: r, key => if k = key then some v else attrGet r key

/-! Node count of a tree; used as the measure for mutual inductions. -/
mutual

def nsize : XNode → Nat
  | .mk _ _ _ cs => 1 + nsizeL cs

def nsizeL : List XNode → Nat
  | [] => 0
  | c :: cs => nsize c + nsizeL cs

end

/-! ## Namespaces, tags and attribute names

`redlining.py` builds its qualified names from the WordprocessingML 2006
namespace; `docx.py` additionally uses the `xml:` namespace for
`xml:space`. -/

/-- `"http://schemas.openxmlformats.org/wordprocessingml/2006/main"`. -/
def wNS : String := "http://schemas.openxmlformats.org/wordprocessingml/2006/main"

/-- The XML namespace used for `xml:space` (`base.XML_NAMESPACE`). -/
def xmlNS : String := "http://www.w3.org/XML/1998/namespace"

/-- `f"\x7b\x7b\x7bns\x7d\x7d\x7dins"` — qualified `w:ins` tag. -/
def insTag : String := "\x7b" ++ wNS ++ "\x7dins"

/-- Qualified `w:del` tag. -/
def delTag : String := "\x7b" ++ wNS ++ "\x7ddel"

/-- Qualified `w:delText` tag. -/
def delTextTag : String := "\x7b" ++ wNS ++ "\x7ddelText"

/-- Qualified `w:t` tag. -/
def tTag : String := "\x7b" ++ wNS ++ "\x7dt"

/-- Qualified `w:p` tag. -/
def pTag : String := "\x7b" ++ wNS ++ "\x7dp"

/-- Qualified `w:author` attribute name. -/
def authorAttr : String := "\x7b" ++ wNS ++ "\x7dauthor"

/-- Qualified `xml:space` attribute name. -/
def xmlSpaceAttr : String := "\x7b" ++ xmlNS ++ "\x7dspace"

/-- `child.tag == ins_tag and child.get(author_attr) == "Claude"`. -/
def isClaudeIns (n : XNode) : Bool :=
  n.tag == insTag && attrGet n.attrs authorAttr == some "Claude"

/-- `child.tag == del_tag and child.get(author_attr) == "Claude"`. -/
def isClaudeDel (n : XNode) : Bool :=
  n.tag == delTag && attrGet n.attrs authorAttr == some "Claude"

/-! ## `RedliningValidator._remove_claude_tracked_changes`

The Python method makes two passes over the tree, mutating it in place;
each pass is modelled as a pure function from the tree before the pass to
the tree after it.

Pass 1 (`redlining.py` lines 139–146) walks every element and removes
those children that are `w:ins` elements authored by `"Claude"`, together
with their entire subtrees.  Since removed subtrees are never visited
again, the net effect is the recursive filter `dropClaudeIns`.

Pass 2 (`redlining.py` lines 148–168) walks the tree top-down.  At each
visited element it collects the `w:del` children authored by `"Claude"`
and replaces each such child, at its position, by that child's children,
after first renaming every `w:delText` tag in the child's subtree to
`w:t`.  The generator `root.iter()` then continues into the updated child
list, so spliced-in content is itself visited as a parent (its own
`w:del` children get unwrapped), but a spliced-in element is never
re-examined as a child of the already-visited parent: a `w:del` that was
a *direct* child of an unwrapped `w:del` survives the pass. -/

mutual

/-- Pass 1: recursively drop every `w:ins` element authored by Claude
(with its whole subtree). -/
def dropClaudeIns : XNode → XNode
  | .mk g a x cs => .mk g a x (dropClaudeInsL cs)

def dropClaudeInsL : List XNode → List XNode
  | [] => []
  | c :: rest =>
    (if isClaudeIns c then [] else [dropClaudeIns c]) ++ dropClaudeInsL rest

end

/-! Renaming helper: `for elem in del_elem.iter(): if elem.tag == deltext_tag:
elem.tag = t_tag` — rename every `w:delText` tag in a subtree to `w:t`. -/
mutual

def renameDelText : XNode → XNode
  | .mk g a x cs =>
    .mk (if g = delTextTag then tTag else g) a x (renameDelTextL cs)

def renameDelTextL : List XNode → List XNode
  | [] => []
  | c :: cs => renameDelText c :: renameDelTextL cs

end

/-! Pass 2, written with the rename pass fused into the recursion so that
the definition is structural.  `unwrapDels` processes a visited parent's
child list: a Claude `w:del` child is replaced by its children (each
processed by `pass2R`, i.e. with its subtree's `w:delText` tags renamed
to `w:t` and its own `w:del` children unwrapped in turn); any other child
is kept and recursively processed as a parent.  `pass2R`/`unwrapDelsR`
are the same two functions acting on a subtree all of whose `w:delText`
tags are being renamed — the equations `pass2R c = pass2 (renameDelText c)`
and `unwrapDelsR cs = unwrapDels (renameDelTextL cs)` are proved below
(`pass2R_eq`, `unwrapDelsR_eq`), establishing that this fused definition
is exactly "rename the unwrapped deletion's subtree, splice its children
into the parent, and continue the traversal into the spliced content". -/
mutual

def pass2 : XNode → XNode
  | .mk g a x cs => .mk g a x (unwrapDels cs)

def unwrapDels : List XNode → List XNode
  | [] => []
  | .mk g a x cs :: rest =>
    (if isClaudeDel (.mk g a x cs) then pass2RL cs
     else [pass2 (.mk g a x cs)]) ++ unwrapDels rest

def pass2RL : List XNode → List XNode
  | [] => []
  | c :: cs => pass2R c :: pass2RL cs

def pass2R : XNode → XNode
  | .mk g a x cs =>
    .mk (if g = delTextTag then tTag else g) a x (unwrapDelsR cs)

def unwrapDelsR : List XNode → List XNode
  | [] => []
  | .mk g a x cs :: rest =>
    (if isClaudeDel (.mk g a x cs) then pass2RL cs
     else [pass2R (.mk g a x cs)]) ++ unwrapDelsR rest

end

/-- `RedliningValidator._remove_claude_tracked_changes`: pass 1 (remove
Claude's `w:ins` elements) followed by pass 2 (unwrap Claude's `w:del`
elements).  The Python method mutates `root` in place; this function maps
the tree passed in to the tree observable after the call. -/
def remove_claude_tracked_changes (root : XNode) : XNode :=
  pass2 (dropClaudeIns root)

/-! ## `RedliningValidator._extract_text_content` -/

/-! `findTag`: all elements with the given tag in a subtree (the element
itself included), in document order — the node set of `elem.iter(tag)` /
`findall(".//tag")` searches. -/
mutual

def findTag (g : String) : XNode → List XNode
  | .mk g' a x cs =>
    (if g' = g then [XNode.mk g' a x cs] else []) ++ findTagL g cs

def findTagL (g : String) : List XNode → List XNode
  | [] => []
  | c :: cs => findTag g c ++ findTagL g cs

end

/-- The string a text node contributes: `if t_elem.text:` appends
`t_elem.text`, so `None` and the empty string contribute nothing. -/
def optText : Option String → String
  | some s => s
  | none => ""

/-! `tJoin`: concatenation of the text of every `w:t` element in a subtree
(document order) — `"".join(text_parts)` for the parts found by
`p_elem.findall(".//w:t")`, with the element itself included. -/
mutual

def tJoin : XNode → String
  | .mk g _ x cs => (if g = tTag then optText x else "") ++ tJoinL cs

def tJoinL : List XNode → String
  | [] => ""
  | c :: cs => tJoin c ++ tJoinL cs

end

/-! `paraTexts`: the projected text of the `w:p` elements of a forest, in
document order: for each paragraph, the concatenated text of all its
`w:t` descendants. -/
mutual

def paraTexts : XNode → List String
  | .mk g _ _ cs => (if g = pTag then [tJoinL cs] else []) ++ paraTextsL cs

def paraTextsL : List XNode → List String
  | [] => []
  | c :: cs => paraTexts c ++ paraTextsL cs

end

/-- `RedliningValidator._extract_text_content`: the projected paragraph
strings of `root.findall(".//w:p")` joined with `"\n"`. -/
def extract_text_content (root : XNode) : String :=
  String.intercalate "\n" (paraTextsL root.children)

/-! ## `RedliningValidator.validate` -/

/-- Outcome of the redlining comparison: `passed`, or `failed` carrying
the two text projections (original first) from which the unified diff in
the failure message is generated. -/
inductive RedliningResult : Type where
  | passed : RedliningResult
  | failed (originalText modifiedText : String) : RedliningResult
deriving DecidableEq

/-- `RedliningValidator.validate`, lines 37–131, for the case where both
`document.xml` parts exist and parse (the I/O failure branches return
`False` before any tree is inspected and are outside this model):

1. collect `.//w:del` and `.//w:ins` of the *modified* tree and filter
   them to author `"Claude"`; if both lists are empty, return `PASSED`
   without comparing anything;
2. otherwise remove Claude's tracked changes from both trees, extract
   both text projections, and fail (with a diff built from the two
   projections) exactly when they differ. -/
def validate_redlining (modifiedRoot originalRoot : XNode) : RedliningResult :=
  let claudeDels := (findTagL delTag modifiedRoot.children).filter
    (fun e => attrGet e.attrs authorAttr == some "Claude")
  let claudeInss := (findTagL insTag modifiedRoot.children).filter
    (fun e => attrGet e.attrs authorAttr == some "Claude")
  if claudeDels.isEmpty && claudeInss.isEmpty then
    .passed
  else
    let modifiedText := extract_text_content (remove_claude_tracked_changes modifiedRoot)
    let originalText := extract_text_content (remove_claude_tracked_changes originalRoot)
    if modifiedText ≠ originalText then .failed originalText modifiedText
    else .passed

/-! ## `DOCXSchemaValidator` (`docx.py`)

Only `document.xml` is inspected by each of the checks below, so each is
modelled on the single parsed tree of that part.  The checks inherited
from `BaseSchemaValidator` (XML well-formedness, unique IDs, file
references, content types, XSD validation, relationship IDs) are external
collaborators per the spec (§1, §6): the orchestrator model receives
their pass/fail outcomes as opaque booleans. -/

/-- The characters matched by Python's `\s` on the ASCII range
(`[ \t\n\r\x0b\x0c]`).  Texts in this model are taken over characters
whose whitespace classification agrees with Python's. -/
def isPySpace (c : Char) : Bool :=
  c == ' ' || c == '\t' || c == '\n' || c == '\r' || c == '\x0b' || c == '\x0c'

/-- `re.match(r"^\s.*", text)`: succeeds exactly when the first character
exists and is whitespace (`.*` then matches a possibly empty run of
non-newline characters). -/
def matchStartWs (s : String) : Bool :=
  match s.data with
  | [] => false
  | c :: _ => isPySpace c

/-- `re.match(r".*\s$", text)` at a given suffix, with every character
before the suffix already consumed by `.*` (hence none of them a
newline): succeeds when the current character is whitespace and `$`
matches right after it — i.e. at the end of the string, or just before a
newline that is the string's last character.  `.*` may consume the
current character only if it is not a newline. -/
def matchEndWsAux : List Char → Bool
  | [] => false
  | c :: rest =>
    (isPySpace c && (rest == ([] : List Char) || rest == ['\n'])) ||
      (c != '\n' && matchEndWsAux rest)

/-- `re.match(r".*\s$", text)`: `.` does not match a newline and `$` also
matches just before a trailing newline. -/
def matchEndWs (s : String) : Bool :=
  matchEndWsAux s.data

/-- `DOCXSchemaValidator.validate_whitespace_preservation` on the parsed
`document.xml` tree: every `w:t` element (`root.iter`) with truthy text
that matches one of the two regexes and does not carry
`xml:space="preserve"` produces one error.  An error is modelled by the
offending text (the Python code wraps it in a location/preview message). -/
def validate_whitespace_errors (root : XNode) : List String :=
  (findTag tTag root).filterMap (fun n =>
    match n.text with
    | some s =>
      if s ≠ "" then
        if matchStartWs s || matchEndWs s then
          if attrGet n.attrs xmlSpaceAttr ≠ some "preserve" then some s else none
        else none
      else none
    | none => none)

/-- `validate_whitespace_preservation` passes iff no error was found. -/
def validate_whitespace_preservation (root : XNode) : Bool :=
  (validate_whitespace_errors root).isEmpty

/-! `tNodesUnderDel`: the node set of the XPath `.//w:del//w:t` from the
root, in document order: `w:t` elements that are descendants of the
context node and have a strict `w:del` ancestor strictly below the root.
`underDel` records whether a `w:del` has been passed on the way down. -/
mutual

def tNodesUnderDel (underDel : Bool) : XNode → List XNode
  | .mk g a x cs =>
    (if underDel && g == tTag then [XNode.mk g a x cs] else []) ++
      tNodesUnderDelL (underDel || g == delTag) cs

def tNodesUnderDelL (underDel : Bool) : List XNode → List XNode
  | [] => []
  | c :: cs => tNodesUnderDel underDel c ++ tNodesUnderDelL underDel cs

end

/-- `DOCXSchemaValidator.validate_deletions` on the parsed `document.xml`
tree: one error per element of `root.xpath(".//w:del//w:t")` with truthy
text, modelled by the offending text. -/
def validate_deletions_errors (root : XNode) : List String :=
  (tNodesUnderDelL false root.children).filterMap (fun n =>
    match n.text with
    | some s => if s ≠ "" then some s else none
    | none => none)

/-- `validate_deletions` passes iff no error was found. -/
def validate_deletions (root : XNode) : Bool :=
  (validate_deletions_errors root).isEmpty

/-- `count_paragraphs_in_unpacked` / `count_paragraphs_in_original`:
`len(root.findall(".//w:p"))`. -/
def count_paragraphs (root : XNode) : Nat :=
  (findTagL pTag root.children).length

/-- Pass/fail outcomes of the checks `DOCXSchemaValidator.validate`
delegates to `BaseSchemaValidator` (external collaborators; spec §6). -/
structure ExternalChecks : Type where
  xmlOk : Bool
  uniqueIdsOk : Bool
  fileRefsOk : Bool
  contentTypesOk : Bool
  xsdOk : Bool
  relIdsOk : Bool

/-- What a run of `DOCXSchemaValidator.validate` returns and reports:
the aggregate boolean, the per-check results that were actually produced
(in run order), and the paragraph counts (original, edited) printed by
`compare_paragraph_counts`, when that comparison was reached. -/
structure DocxReport : Type where
  result : Bool
  checksRun : List (String × Bool)
  paragraphCounts : Option (Nat × Nat)

/-- `DOCXSchemaValidator.validate` (docx.py lines 24–62): Test 0 returns
`False` immediately on failure; otherwise tests 1–7 all run, their
results are AND-ed into `all_valid`, the paragraph counts are compared
(output only), and `all_valid` is returned. -/
def docx_validate (c : ExternalChecks) (edited original : XNode) : DocxReport :=
  if c.xmlOk = false then
    { result := false
      checksRun := [("xml_well_formed", false)]
      paragraphCounts := none }
  else
    let ws := validate_whitespace_preservation edited
    let dels := validate_deletions edited
    { result := c.uniqueIdsOk && c.fileRefsOk && c.contentTypesOk && c.xsdOk
        && ws && dels && c.relIdsOk
      checksRun := [("xml_well_formed", true), ("unique_ids", c.uniqueIdsOk),
        ("file_references", c.fileRefsOk), ("content_types", c.contentTypesOk),
        ("xsd_schema", c.xsdOk), ("whitespace_preservation", ws),
        ("deletions", dels), ("relationship_ids", c.relIdsOk)]
      paragraphCounts := some (count_paragraphs original, count_paragraphs edited) }

/-! ## Structural predicates on trees

Decidable (Bool-valued) predicates used to state the claims: presence of
Claude-authored markers, absence of `w:delText` tags, and the nesting
shapes that matter to the resolver. -/

/-! `hasClaudeIns`: some element of the subtree (the node itself
included) is a `w:ins` authored by Claude. -/
mutual

def hasClaudeIns : XNode → Bool
  | .mk g a x cs => isClaudeIns (.mk g a x cs) || hasClaudeInsL cs

def hasClaudeInsL : List XNode → Bool
  | [] => false
  | c :: cs => hasClaudeIns c || hasClaudeInsL cs

end

/-! `hasClaudeDel`: some element of the subtree (the node itself
included) is a `w:del` authored by Claude. -/
mutual

def hasClaudeDel : XNode → Bool
  | .mk g a x cs => isClaudeDel (.mk g a x cs) || hasClaudeDelL cs

def hasClaudeDelL : List XNode → Bool
  | [] => false
  | c :: cs => hasClaudeDel c || hasClaudeDelL cs

end

/-- Some element of the subtree is a tracked-change marker (`w:ins` or
`w:del`) authored by Claude. -/
def hasClaudeMarker (n : XNode) : Bool :=
  hasClaudeIns n || hasClaudeDel n

/-! `dtFree`: the subtree contains no `w:delText` element. -/
mutual

def dtFree : XNode → Bool
  | .mk g _ _ cs => !(g == delTextTag) && dtFreeL cs

def dtFreeL : List XNode → Bool
  | [] => true
  | c :: cs => dtFree c && dtFreeL cs

end

/-! `markerFree`: the subtree contains no `w:ins`, `w:del` or
`w:delText` element at all (any author) — plain document content. -/
mutual

def markerFree : XNode → Bool
  | .mk g _ _ cs =>
    !(g == insTag || g == delTag || g == delTextTag) && markerFreeL cs

def markerFreeL : List XNode → Bool
  | [] => true
  | c :: cs => markerFree c && markerFreeL cs

end

/-! `noDelDel`: nowhere in the subtree is a Claude `w:del` a *direct*
child of a Claude `w:del` — the nesting shape on which the single
top-down pass of `_remove_claude_tracked_changes` leaves the inner
marker behind. -/
mutual

def noDelDel : XNode → Bool
  | .mk g a x cs =>
    (!(isClaudeDel (.mk g a x cs)) || !(cs.any isClaudeDel)) && noDelDelL cs

def noDelDelL : List XNode → Bool
  | [] => true
  | c :: cs => noDelDel c && noDelDelL cs

end

/-! `cleanDels`: every Claude `w:del` element of the subtree has a
`w:delText`-free subtree.  This invariant holds of every resolver output
and makes a second resolver run projection-preserving. -/
mutual

def cleanDels : XNode → Bool
  | .mk g a x cs =>
    (!(isClaudeDel (.mk g a x cs)) || dtFreeL cs) && cleanDelsL cs

def cleanDelsL : List XNode → Bool
  | [] => true
  | c :: cs => cleanDels c && cleanDelsL cs

end

/-! `descendants`: the strict descendants of a node in document
(preorder) order. -/
mutual

def descendants : XNode → List XNode
  | .mk _ _ _ cs => descendantsL cs

def descendantsL : List XNode → List XNode
  | [] => []
  | c :: cs => (c :: descendants c) ++ descendantsL cs

end

/-! ## The editing relation for the round-trip claim

How a deletion is expressed in WordprocessingML: the deleted content is
wrapped in a `w:del` element and its `w:t` text tags are replaced by the
distinguished `w:delText` tag.  `wrapDelText` performs that renaming. -/

/-! Rename every `w:t` tag in a subtree to `w:delText` (the form in
which content wrapped by a `w:del` carries its text). -/
mutual

def wrapDelText : XNode → XNode
  | .mk g a x cs =>
    .mk (if g = tTag then delTextTag else g) a x (wrapDelTextL cs)

def wrapDelTextL : List XNode → List XNode
  | [] => []
  | c :: cs => wrapDelText c :: wrapDelTextL cs

end

/-- `Edits cs cs'` — the child list `cs'` of the edited tree equals the
child list `cs` of the original tree plus only tracked changes authored
by `"Claude"`:

* `keep` — an original element is kept with its tag, attributes and
  text, its children edited recursively;
* `insAdd` — a new element is inserted, wrapped in a Claude-authored
  `w:ins` (its content is arbitrary: undoing the insertion discards it);
* `delWrap` — an original element is wrapped in a Claude-authored
  `w:del`, its ordinary text tags renamed to `w:delText`.

`Edits` applied to the root children, together with `markerFreeL` of the
original, formalises "the edited tree equals the original tree plus only
target-author insertions/deletions (no other authors, no untracked
edits)". -/
inductive Edits : List XNode → List XNode → Prop where
  | nil : Edits [] []
  | keep (g : String) (a : List (String × String)) (x : Option String)
      {cs cs' os es : List XNode} :
      Edits cs cs' → Edits os es →
      Edits (XNode.mk g a x cs :: os) (XNode.mk g a x cs' :: es)
  | insAdd (a : List (String × String)) (x : Option String) (k : List XNode)
      {os es : List XNode} :
      attrGet a authorAttr = some "Claude" → Edits os es →
      Edits os (XNode.mk insTag a x k :: es)
  | delWrap (a : List (String × String)) (x : Option String) {o : XNode}
      {os es : List XNode} :
      attrGet a authorAttr = some "Claude" → Edits os es →
      Edits (o :: os) (XNode.mk delTag a x [wrapDelText o] :: es)

/-! ## Spec-side boundary-whitespace predicates

The spec describes the whitespace check by boundary predicates on the
first and last character; these are the reference against which the
regex-based implementation is compared. -/

/-- The content starts with a whitespace character. -/
def startsWithWhitespace (s : String) : Bool :=
  match s.data with
  | [] => false
  | c :: _ => isPySpace c

/-- The content ends with a whitespace character. -/
def endsWithWhitespace (s : String) : Bool :=
  match s.data.getLast? with
  | some c => isPySpace c
  | none => false

/-! ## Concrete documents used by the claims' instances -/

/-- Qualified WordprocessingML tag. -/
def wTag (localName : String) : String := "\x7b" ++ wNS ++ "\x7d" ++ localName

/-- A `w:t` element with the given text. -/
def tEl (s : String) : XNode := .mk tTag [] (some s) []

/-- A `w:delText` element with the given text. -/
def dtEl (s : String) : XNode := .mk delTextTag [] (some s) []

/-- A `w:r` run. -/
def rEl (cs : List XNode) : XNode := .mk (wTag "r") [] none cs

/-- A `w:p` paragraph. -/
def pEl (cs : List XNode) : XNode := .mk pTag [] none cs

/-- A `w:body` element. -/
def bodyEl (cs : List XNode) : XNode := .mk (wTag "body") [] none cs

/-- A `w:document` root. -/
def docEl (cs : List XNode) : XNode := .mk (wTag "document") [] none cs

/-- A Claude-authored `w:ins`. -/
def insClaude (cs : List XNode) : XNode := .mk insTag [(authorAttr, "Claude")] none cs

/-- A Claude-authored `w:del`. -/
def delClaude (cs : List XNode) : XNode := .mk delTag [(authorAttr, "Claude")] none cs

/-- Original document: one paragraph reading `"Hello world."`. -/
def origHello : XNode := docEl [bodyEl [pEl [rEl [tEl "Hello world."]]]]

/-- Edited document that replaced `"world."` by `"there."` with no
tracked-change markers at all. -/
def editedUntracked : XNode := docEl [bodyEl [pEl [rEl [tEl "Hello there."]]]]

/-- Edited document expressing the same edit through tracked changes:
a Claude `w:ins` with the replacement text, followed by the original run
wrapped in a Claude `w:del` with its text tag turned into `w:delText`. -/
def editedTracked : XNode :=
  docEl [bodyEl [pEl [insClaude [rEl [tEl "Hello there,"]],
    XNode.mk delTag [(authorAttr, "Claude")] none
      [wrapDelText (rEl [tEl "Hello world."])]]]]

/-- A Claude `w:del` directly containing a Claude `w:del` around
`w:delText "x"` — the nesting on which the single-pass unwrap leaves the
inner marker behind. -/
def delInDel : XNode :=
  docEl [bodyEl [pEl [delClaude [delClaude [dtEl "x"]]]]]

/-- A Claude `w:del` wrapping a `w:del` by another author (`"Bob"`)
whose deleted text uses `w:delText` — resolving for Claude rewrites
Bob's `w:delText` into ordinary `w:t`. -/
def claudeDelAroundBobDel : XNode :=
  docEl [bodyEl [pEl [delClaude
    [XNode.mk delTag [(authorAttr, "Bob")] none [dtEl "x"]]]]]

/-- One deletion marker wrapping one ordinary-text node `"hello"`. -/
def oneDelOneT : XNode := docEl [bodyEl [pEl [delClaude [tEl "hello"]]]]

/-- A `w:t` whose text `"a\nb "` ends with a space but contains an
interior newline, without `xml:space="preserve"`. -/
def multilineWsDoc : XNode :=
  docEl [bodyEl [pEl [rEl [XNode.mk tTag [] (some "a\nb ") []]]]]

/-- A `w:t` with text `" hello"` and no `xml:space` attribute. -/
def leadingSpaceDoc : XNode :=
  docEl [bodyEl [pEl [rEl [XNode.mk tTag [] (some " hello") []]]]]

/-- A `w:t` with text `"hello"` and `xml:space="preserve"` present. -/
def plainTextDoc : XNode :=
  docEl [bodyEl [pEl [rEl
    [XNode.mk tTag [(xmlSpaceAttr, "preserve")] (some "hello") []]]]]

/-- A `w:t` with text `"hello"` and no attributes. -/
def plainTextNoAttrDoc : XNode :=
  docEl [bodyEl [pEl [rEl [XNode.mk tTag [] (some "hello") []]]]]

/-- A `w:t` with text `" hello"` and `xml:space="preserve"` present. -/
def leadingSpacePreserveDoc : XNode :=
  docEl [bodyEl [pEl [rEl
    [XNode.mk tTag [(xmlSpaceAttr, "preserve")] (some " hello") []]]]]

/-- Mutual induction principle for `XNode` and `List XNode`, proved by
strong induction on `nsize`/`nsizeL`. -/
theorem xnode_mutual_ind (P : XNode → Prop) (Q : List XNode → Prop)
    (hn : ∀ g a x cs, Q cs → P (.mk g a x cs))
    (h0 : Q [])
    (hc : ∀ c cs, P c → Q cs → Q (c :: cs)) :
    (∀ c, P c) ∧ (∀ cs, Q cs) := by
  have key : ∀ k, (∀ c, nsize c ≤ k → P c) ∧ (∀ cs, nsizeL cs ≤ k → Q cs) := by
    intro k
    induction k with
    | zero =>
      refine ⟨?_, ?_⟩
      · intro c hle
        cases c with
        | mk g a x cs => simp [nsize] at hle
      · intro cs hle
        cases cs with
        | nil => exact h0
        | cons c cs =>
          cases c with
          | mk g a x cs' =>
            exfalso
            simp [nsizeL, nsize] at hle

    | succ k ih =>
      have node : ∀ c, nsize c ≤ k + 1 → P c := by
        intro c hle
        cases c with
        | mk g a x cs =>
          apply hn
          apply ih.2
          simp [nsize] at hle
          omega
      refine ⟨node, ?_⟩
      intro cs hle
      induction cs with
      | nil => exact h0
      | cons c cs ihl =>
        have h1 : nsize c + nsizeL cs ≤ k + 1 := by simpa [nsizeL] using hle
        exact hc c cs (node c (by omega)) (ihl (by omega))
  constructor
  · intro c
    exact (key (nsize c)).1 c le_rfl
  · intro cs
    exact (key (nsizeL cs)).2 cs le_rfl

/-! ## Basic equations and tag facts -/

theorem insTag_ne_delTag : (insTag == delTag) = false := by decide

theorem delTextTag_ne_delTag : (delTextTag == delTag) = false := by decide

theorem tTag_ne_delTag : (tTag == delTag) = false := by decide

theorem delTag_ne_tTag : (delTag = tTag) = False := by simp; decide

theorem delTag_ne_pTag : (delTag = pTag) = False := by simp; decide

theorem delTextTag_ne_insTag : (delTextTag == insTag) = false := by decide

theorem tTag_ne_insTag : (tTag == insTag) = false := by decide

theorem pass2_def (n : XNode) :
    pass2 n = .mk n.tag n.attrs n.text (unwrapDels n.children) := by
  cases n with
  | mk g a x cs => rfl

theorem pass2R_def (n : XNode) :
    pass2R n = .mk (if n.tag = delTextTag then tTag else n.tag) n.attrs n.text
      (unwrapDelsR n.children) := by
  cases n with
  | mk g a x cs => rfl

theorem renameDelText_def (n : XNode) :
    renameDelText n = .mk (if n.tag = delTextTag then tTag else n.tag) n.attrs n.text
      (renameDelTextL n.children) := by
  cases n with
  | mk g a x cs => rfl

theorem dropClaudeIns_def (n : XNode) :
    dropClaudeIns n = .mk n.tag n.attrs n.text (dropClaudeInsL n.children) := by
  cases n with
  | mk g a x cs => rfl

theorem unwrapDels_cons (c : XNode) (rest : List XNode) :
    unwrapDels (c :: rest) =
      (if isClaudeDel c then pass2RL c.children else [pass2 c]) ++ unwrapDels rest := by
  cases c with
  | mk g a x cs => rfl

theorem unwrapDelsR_cons (c : XNode) (rest : List XNode) :
    unwrapDelsR (c :: rest) =
      (if isClaudeDel c then pass2RL c.children else [pass2R c]) ++ unwrapDelsR rest := by
  cases c with
  | mk g a x cs => rfl

theorem pass2RL_eq_map (cs : List XNode) : pass2RL cs = cs.map pass2R := by
  induction cs with
  | nil => rfl
  | cons c cs ih => simp [pass2RL, ih]

theorem renameDelTextL_eq_map (cs : List XNode) :
    renameDelTextL cs = cs.map renameDelText := by
  induction cs with
  | nil => rfl
  | cons c cs ih => simp [renameDelTextL, ih]

theorem dropClaudeInsL_append (as bs : List XNode) :
    dropClaudeInsL (as ++ bs) = dropClaudeInsL as ++ dropClaudeInsL bs := by
  induction as with
  | nil => rfl
  | cons c cs ih => simp [dropClaudeInsL, ih]

theorem unwrapDels_append (as bs : List XNode) :
    unwrapDels (as ++ bs) = unwrapDels as ++ unwrapDels bs := by
  induction as with
  | nil => rfl
  | cons c cs ih =>
    rw [List.cons_append, unwrapDels_cons, unwrapDels_cons, ih, List.append_assoc]

theorem tJoinL_append (as bs : List XNode) :
    tJoinL (as ++ bs) = tJoinL as ++ tJoinL bs := by
  induction as with
  | nil => simp [tJoinL]
  | cons c cs ih => simp [tJoinL, ih, String.append_assoc]

theorem paraTextsL_append (as bs : List XNode) :
    paraTextsL (as ++ bs) = paraTextsL as ++ paraTextsL bs := by
  induction as with
  | nil => rfl
  | cons c cs ih => simp [paraTextsL, ih]

theorem findTagL_append (g : String) (as bs : List XNode) :
    findTagL g (as ++ bs) = findTagL g as ++ findTagL g bs := by
  induction as with
  | nil => rfl
  | cons c cs ih => simp [findTagL, ih]

theorem hasClaudeInsL_append (as bs : List XNode) :
    hasClaudeInsL (as ++ bs) = (hasClaudeInsL as || hasClaudeInsL bs) := by
  induction as with
  | nil => simp [hasClaudeInsL]
  | cons c cs ih => simp [hasClaudeInsL, ih, Bool.or_assoc]

theorem hasClaudeDelL_append (as bs : List XNode) :
    hasClaudeDelL (as ++ bs) = (hasClaudeDelL as || hasClaudeDelL bs) := by
  induction as with
  | nil => simp [hasClaudeDelL]
  | cons c cs ih => simp [hasClaudeDelL, ih, Bool.or_assoc]

theorem dtFreeL_append (as bs : List XNode) :
    dtFreeL (as ++ bs) = (dtFreeL as && dtFreeL bs) := by
  induction as with
  | nil => simp [dtFreeL]
  | cons c cs ih => simp [dtFreeL, ih, Bool.and_assoc]

theorem cleanDelsL_append (as bs : List XNode) :
    cleanDelsL (as ++ bs) = (cleanDelsL as && cleanDelsL bs) := by
  induction as with
  | nil => simp [cleanDelsL]
  | cons c cs ih => simp [cleanDelsL, ih, Bool.and_assoc]

theorem noDelDelL_append (as bs : List XNode) :
    noDelDelL (as ++ bs) = (noDelDelL as && noDelDelL bs) := by
  induction as with
  | nil => simp [noDelDelL]
  | cons c cs ih => simp [noDelDelL, ih, Bool.and_assoc]

theorem nsizeL_append (as bs : List XNode) :
    nsizeL (as ++ bs) = nsizeL as + nsizeL bs := by
  induction as with
  | nil => simp [nsizeL]
  | cons c cs ih => simp [nsizeL, ih]; omega

theorem nsize_pos (c : XNode) : 1 ≤ nsize c := by
  cases c with
  | mk g a x cs => simp [nsize]

theorem nsize_le_of_mem {c : XNode} {cs : List XNode} (h : c ∈ cs) :
    nsize c ≤ nsizeL cs := by
  induction cs with
  | nil => cases h
  | cons d ds ih =>
    rcases List.mem_cons.mp h with h1 | h2
    · subst h1; simp [nsizeL]
    · have := ih h2
      simp [nsizeL]
      omega

theorem nsizeL_children_lt (g : String) (a : List (String × String))
    (x : Option String) (cs : List XNode) :
    nsizeL cs < nsize (.mk g a x cs) := by
  simp [nsize]

/-! ## Rename lemmas and the fused/unfused correspondence for pass 2 -/

theorem rnTag_eq_delTag (g : String) :
    ((if g = delTextTag then tTag else g) == delTag) = (g == delTag) := by
  by_cases h : g = delTextTag
  · simp [h, tTag_ne_delTag, delTextTag_ne_delTag]
  · simp [h]

theorem rnTag_eq_insTag (g : String) :
    ((if g = delTextTag then tTag else g) == insTag) = (g == insTag) := by
  by_cases h : g = delTextTag
  · simp [h, tTag_ne_insTag, delTextTag_ne_insTag]
  · simp [h]

theorem isClaudeDel_renameDelText (c : XNode) :
    isClaudeDel (renameDelText c) = isClaudeDel c := by
  cases c with
  | mk g a x cs =>
    simp only [isClaudeDel, renameDelText, XNode.tag, XNode.attrs]
    rw [rnTag_eq_delTag]

theorem isClaudeIns_renameDelText (c : XNode) :
    isClaudeIns (renameDelText c) = isClaudeIns c := by
  cases c with
  | mk g a x cs =>
    simp only [isClaudeIns, renameDelText, XNode.tag, XNode.attrs]
    rw [rnTag_eq_insTag]

theorem renameDelText_idem :
    (∀ c, renameDelText (renameDelText c) = renameDelText c) ∧
    (∀ cs, renameDelTextL (renameDelTextL cs) = renameDelTextL cs) := by
  refine xnode_mutual_ind _ _ ?_ ?_ ?_
  · intro g a x cs hq
    simp only [renameDelText, renameDelTextL] at *
    rw [hq]
    by_cases h : g = delTextTag <;> simp [h]
  · rfl
  · intro c cs hp hq
    simp only [renameDelTextL]
    rw [hp, hq]

theorem dtFree_renameDelText :
    (∀ c, dtFree (renameDelText c) = true) ∧
    (∀ cs, dtFreeL (renameDelTextL cs) = true) := by
  refine xnode_mutual_ind _ _ ?_ ?_ ?_
  · intro g a x cs hq
    simp only [renameDelText, dtFree, hq, Bool.and_true]
    by_cases h : g = delTextTag
    · simp [h]
      decide
    · simp [h]
  · rfl
  · intro c cs hp hq
    simp [dtFreeL, hp, hq]

theorem renameDelText_id_of_dtFree :
    (∀ c, dtFree c = true → renameDelText c = c) ∧
    (∀ cs, dtFreeL cs = true → renameDelTextL cs = cs) := by
  refine xnode_mutual_ind _ _ ?_ ?_ ?_
  · intro g a x cs hq hdf
    simp only [dtFree, Bool.and_eq_true] at hdf
    simp only [renameDelText]
    rw [hq hdf.2]
    have hg : ¬ g = delTextTag := by
      intro h
      rw [h] at hdf
      simp at hdf
    simp [hg]
  · intro _
    rfl
  · intro c cs hp hq hdf
    simp only [dtFreeL, Bool.and_eq_true] at hdf
    simp only [renameDelTextL]
    rw [hp hdf.1, hq hdf.2]

theorem hasClaudeIns_renameDelText :
    (∀ c, hasClaudeIns (renameDelText c) = hasClaudeIns c) ∧
    (∀ cs, hasClaudeInsL (renameDelTextL cs) = hasClaudeInsL cs) := by
  refine xnode_mutual_ind _ _ ?_ ?_ ?_
  · intro g a x cs hq
    simp only [renameDelText, hasClaudeIns, XNode.tag, XNode.attrs] at *
    rw [hq]
    congr 1
    simp only [isClaudeIns, XNode.tag, XNode.attrs]
    rw [rnTag_eq_insTag]
  · rfl
  · intro c cs hp hq
    simp only [hasClaudeInsL]
    rw [hp, hq]

theorem hasClaudeDel_renameDelText :
    (∀ c, hasClaudeDel (renameDelText c) = hasClaudeDel c) ∧
    (∀ cs, hasClaudeDelL (renameDelTextL cs) = hasClaudeDelL cs) := by
  refine xnode_mutual_ind _ _ ?_ ?_ ?_
  · intro g a x cs hq
    simp only [renameDelText, hasClaudeDel, XNode.tag, XNode.attrs] at *
    rw [hq]
    congr 1
    simp only [isClaudeDel, XNode.tag, XNode.attrs]
    rw [rnTag_eq_delTag]
  · rfl
  · intro c cs hp hq
    simp only [hasClaudeDelL]
    rw [hp, hq]

theorem noDelDel_renameDelText :
    (∀ c, noDelDel (renameDelText c) = noDelDel c) ∧
    (∀ cs, noDelDelL (renameDelTextL cs) = noDelDelL cs) := by
  refine xnode_mutual_ind _ _ ?_ ?_ ?_
  · intro g a x cs hq
    simp only [renameDelText, noDelDel, XNode.tag, XNode.attrs] at *
    rw [hq]
    congr 1
    congr 1
    · congr 1
      simp only [isClaudeDel, XNode.tag, XNode.attrs]
      rw [rnTag_eq_delTag]
    · congr 1
      rw [renameDelTextL_eq_map, List.any_map]
      congr 1
      funext d
      simp [Function.comp, isClaudeDel_renameDelText]
  · rfl
  · intro c cs hp hq
    simp only [noDelDelL]
    rw [hp, hq]

/-- Renaming before `pass2R` is absorbed (the fused pass renames anyway):
the node form, together with the two child-list forms carried along for
the induction. -/
theorem pass2R_renameDelText :
    (∀ c, pass2R (renameDelText c) = pass2R c ∧
      pass2RL (renameDelTextL c.children) = pass2RL c.children ∧
      unwrapDelsR (renameDelTextL c.children) = unwrapDelsR c.children) ∧
    (∀ cs, pass2RL (renameDelTextL cs) = pass2RL cs ∧
      unwrapDelsR (renameDelTextL cs) = unwrapDelsR cs) := by
  refine xnode_mutual_ind _ _ ?_ ?_ ?_
  · intro g a x cs hq
    refine ⟨?_, hq.1, hq.2⟩
    simp only [renameDelText, pass2R]
    rw [hq.2]
    by_cases h : g = delTextTag <;> simp [h]
  · exact ⟨rfl, rfl⟩
  · intro c cs hp hq
    constructor
    · simp only [renameDelTextL, pass2RL]
      rw [hp.1, hq.1]
    · simp only [renameDelTextL]
      rw [unwrapDelsR_cons, unwrapDelsR_cons, isClaudeDel_renameDelText, hq.2]
      congr 1
      by_cases h : isClaudeDel c
      · simp only [h, if_true]
        cases c with
        | mk g a x ccs =>
          simpa [renameDelText, XNode.children] using hp.2.1
      · simp only [h, if_false]
        rw [hp.1]
        simp

theorem pass2RL_renameDelTextL (cs : List XNode) :
    pass2RL (renameDelTextL cs) = pass2RL cs :=
  (pass2R_renameDelText.2 cs).1

/-- The fused pass agrees with "rename the subtree, then run pass 2":
`pass2R = pass2 ∘ renameDelText`, and on child lists the unwrap step of
the fused pass is the unwrap step after renaming. -/
theorem pass2R_eq :
    (∀ c, pass2R c = pass2 (renameDelText c)) ∧
    (∀ cs, pass2RL cs = (renameDelTextL cs).map pass2 ∧
      unwrapDelsR cs = unwrapDels (renameDelTextL cs)) := by
  refine xnode_mutual_ind _ _ ?_ ?_ ?_
  · intro g a x cs hq
    simp only [pass2R, renameDelText, pass2]
    rw [hq.2]
  · exact ⟨rfl, rfl⟩
  · intro c cs hp hq
    constructor
    · simp only [pass2RL, renameDelTextL, List.map]
      rw [hp, hq.1]
    · simp only [renameDelTextL]
      rw [unwrapDelsR_cons, unwrapDels_cons, isClaudeDel_renameDelText, hq.2]
      congr 1
      by_cases h : isClaudeDel c
      · simp only [h, if_true]
        cases c with
        | mk g a x ccs =>
          simp only [renameDelText, XNode.children]
          rw [pass2RL_renameDelTextL]
      · simp only [h, if_false, hp]
        simp

/-! ## Bridging the list predicates to `List.all` / `List.any` -/

theorem hasClaudeInsL_eq_any (cs : List XNode) :
    hasClaudeInsL cs = cs.any hasClaudeIns := by
  induction cs with
  | nil => rfl
  | cons c cs ih => simp [hasClaudeInsL, ih]

theorem hasClaudeDelL_eq_any (cs : List XNode) :
    hasClaudeDelL cs = cs.any hasClaudeDel := by
  induction cs with
  | nil => rfl
  | cons c cs ih => simp [hasClaudeDelL, ih]

theorem dtFreeL_eq_all (cs : List XNode) : dtFreeL cs = cs.all dtFree := by
  induction cs with
  | nil => rfl
  | cons c cs ih => simp [dtFreeL, ih]

theorem cleanDelsL_eq_all (cs : List XNode) : cleanDelsL cs = cs.all cleanDels := by
  induction cs with
  | nil => rfl
  | cons c cs ih => simp [cleanDelsL, ih]

theorem noDelDelL_eq_all (cs : List XNode) : noDelDelL cs = cs.all noDelDel := by
  induction cs with
  | nil => rfl
  | cons c cs ih => simp [noDelDelL, ih]

theorem markerFreeL_eq_all (cs : List XNode) : markerFreeL cs = cs.all markerFree := by
  induction cs with
  | nil => rfl
  | cons c cs ih => simp [markerFreeL, ih]

/-! ## Marker-absence facts and identity of the passes -/

theorem isClaudeIns_mk (g : String) (a : List (String × String))
    (x : Option String) (cs : List XNode) :
    isClaudeIns (.mk g a x cs) = (g == insTag && attrGet a authorAttr == some "Claude") := rfl

theorem isClaudeDel_mk (g : String) (a : List (String × String))
    (x : Option String) (cs : List XNode) :
    isClaudeDel (.mk g a x cs) = (g == delTag && attrGet a authorAttr == some "Claude") := rfl

theorem isClaudeIns_eq_false_of_isClaudeDel {c : XNode}
    (h : isClaudeDel c = true) : isClaudeIns c = false := by
  cases c with
  | mk g a x cs =>
    rw [isClaudeDel_mk] at h
    rw [isClaudeIns_mk]
    have hg : g = delTag := eq_of_beq ((Bool.and_eq_true _ _).mp h).1
    subst hg
    have hne : (delTag == insTag) = false := by decide
    simp [hne]

theorem hasClaudeIns_parts {c : XNode} (h : hasClaudeIns c = false) :
    isClaudeIns c = false ∧ hasClaudeInsL c.children = false := by
  cases c with
  | mk g a x cs =>
    simp only [hasClaudeIns, Bool.or_eq_false_iff] at h
    exact ⟨h.1, h.2⟩

theorem hasClaudeDel_parts {c : XNode} (h : hasClaudeDel c = false) :
    isClaudeDel c = false ∧ hasClaudeDelL c.children = false := by
  cases c with
  | mk g a x cs =>
    simp only [hasClaudeDel, Bool.or_eq_false_iff] at h
    exact ⟨h.1, h.2⟩

theorem markerFree_no_markers :
    (∀ c, markerFree c = true →
      hasClaudeIns c = false ∧ hasClaudeDel c = false ∧ dtFree c = true) ∧
    (∀ cs, markerFreeL cs = true →
      hasClaudeInsL cs = false ∧ hasClaudeDelL cs = false ∧ dtFreeL cs = true) := by
  refine xnode_mutual_ind _ _ ?_ ?_ ?_
  · intro g a x cs hq h
    rw [markerFree, Bool.and_eq_true] at h
    have htags : (g == insTag || g == delTag || g == delTextTag) = false := by
      rw [Bool.not_eq_true'] at h
      exact h.1
    rw [Bool.or_eq_false_iff, Bool.or_eq_false_iff] at htags
    obtain ⟨⟨h1, h2⟩, h3⟩ := htags
    obtain ⟨q1, q2, q3⟩ := hq h.2
    refine ⟨?_, ?_, ?_⟩
    · rw [hasClaudeIns, isClaudeIns_mk, h1, q1]
      rfl
    · rw [hasClaudeDel, isClaudeDel_mk, h2, q2]
      rfl
    · rw [dtFree, h3, q3]
      rfl
  · intro _
    exact ⟨rfl, rfl, rfl⟩
  · intro c cs hp hq h
    simp only [markerFreeL, Bool.and_eq_true] at h
    obtain ⟨p1, p2, p3⟩ := hp h.1
    obtain ⟨q1, q2, q3⟩ := hq h.2
    refine ⟨?_, ?_, ?_⟩
    · simp [hasClaudeInsL, p1, q1]
    · simp [hasClaudeDelL, p2, q2]
    · simp [dtFreeL, p3, q3]

theorem dropClaudeIns_id :
    (∀ c, hasClaudeIns c = false → dropClaudeIns c = c) ∧
    (∀ cs, hasClaudeInsL cs = false → dropClaudeInsL cs = cs) := by
  refine xnode_mutual_ind _ _ ?_ ?_ ?_
  · intro g a x cs hq h
    simp only [hasClaudeIns, Bool.or_eq_false_iff] at h
    simp only [dropClaudeIns]
    rw [hq h.2]
  · intro _
    rfl
  · intro c cs hp hq h
    simp only [hasClaudeInsL, Bool.or_eq_false_iff] at h
    simp only [dropClaudeInsL]
    have hic : isClaudeIns c = false := (hasClaudeIns_parts h.1).1
    rw [if_neg (by simp [hic])]
    rw [hp h.1, hq h.2]
    simp

theorem pass2_id :
    (∀ c, hasClaudeDel c = false → pass2 c = c) ∧
    (∀ cs, hasClaudeDelL cs = false → unwrapDels cs = cs) := by
  refine xnode_mutual_ind _ _ ?_ ?_ ?_
  · intro g a x cs hq h
    simp only [hasClaudeDel, Bool.or_eq_false_iff] at h
    simp only [pass2]
    rw [hq h.2]
  · intro _
    rfl
  · intro c cs hp hq h
    simp only [hasClaudeDelL, Bool.or_eq_false_iff] at h
    rw [unwrapDels_cons]
    simp only [(hasClaudeDel_parts h.1).1, if_false]
    rw [hp h.1, hq h.2]
    simp

/-- Pass 1 removes every Claude `w:ins` from a child forest. -/
theorem dropClaudeIns_no_ins :
    (∀ c, isClaudeIns c = false → hasClaudeIns (dropClaudeIns c) = false) ∧
    (∀ cs, hasClaudeInsL (dropClaudeInsL cs) = false) := by
  refine xnode_mutual_ind _ _ ?_ ?_ ?_
  · intro g a x cs hq h
    simp only [dropClaudeIns, hasClaudeIns]
    rw [isClaudeIns_mk] at h ⊢
    simp [h, hq]
  · rfl
  · intro c cs hp hq
    simp only [dropClaudeInsL]
    by_cases h : isClaudeIns c = true
    · rw [if_pos h]
      simpa [hasClaudeInsL] using hq
    · rw [if_neg h]
      rw [List.singleton_append, hasClaudeInsL]
      simp [hp (Bool.eq_false_iff.mpr h), hq]

/-! ## `wrapDelText` transport lemmas (for the round-trip relation) -/

theorem wrapTag_eq_insTag (g : String) :
    ((if g = tTag then delTextTag else g) == insTag) = (g == insTag) := by
  by_cases h : g = tTag
  · simp [h, delTextTag_ne_insTag, tTag_ne_insTag]
  · simp [h]

theorem wrapTag_eq_delTag (g : String) :
    ((if g = tTag then delTextTag else g) == delTag) = (g == delTag) := by
  by_cases h : g = tTag
  · simp [h, delTextTag_ne_delTag, tTag_ne_delTag]
  · simp [h]

theorem hasClaudeIns_wrapDelText :
    (∀ c, hasClaudeIns (wrapDelText c) = hasClaudeIns c) ∧
    (∀ cs, hasClaudeInsL (wrapDelTextL cs) = hasClaudeInsL cs) := by
  refine xnode_mutual_ind _ _ ?_ ?_ ?_
  · intro g a x cs hq
    simp only [wrapDelText, hasClaudeIns]
    rw [hq, isClaudeIns_mk, isClaudeIns_mk, wrapTag_eq_insTag]
  · rfl
  · intro c cs hp hq
    simp only [wrapDelTextL, hasClaudeInsL]
    rw [hp, hq]

/-- Undoing the editor's renaming: on a `w:delText`-free subtree,
renaming `w:t → w:delText` then `w:delText → w:t` is the identity. -/
theorem renameDelText_wrapDelText :
    (∀ c, dtFree c = true → renameDelText (wrapDelText c) = c) ∧
    (∀ cs, dtFreeL cs = true → renameDelTextL (wrapDelTextL cs) = cs) := by
  refine xnode_mutual_ind _ _ ?_ ?_ ?_
  · intro g a x cs hq h
    simp only [dtFree, Bool.and_eq_true, Bool.not_eq_true'] at h
    simp only [wrapDelText, renameDelText]
    rw [hq h.2]
    by_cases hg : g = tTag
    · simp [hg]
    · have hg2 : ¬ g = delTextTag := by
        intro hcontra
        rw [hcontra] at h
        simp at h
      simp [hg, hg2]
  · intro _
    rfl
  · intro c cs hp hq h
    simp only [dtFreeL, Bool.and_eq_true] at h
    simp only [wrapDelTextL, renameDelTextL]
    rw [hp h.1, hq h.2]

/-! ## The round-trip lemma for `Edits` and the comparison theorems -/

theorem delTag_ne_insTag : (delTag == insTag) = false := by decide

theorem markerFree_parts {g : String} {a : List (String × String)}
    {x : Option String} {cs : List XNode}
    (h : markerFree (XNode.mk g a x cs) = true) :
    (g == insTag) = false ∧ (g == delTag) = false ∧ (g == delTextTag) = false ∧
      markerFreeL cs = true := by
  rw [markerFree, Bool.and_eq_true] at h
  have htags : (g == insTag || g == delTag || g == delTextTag) = false := by
    rw [Bool.not_eq_true'] at h
    exact h.1
  rw [Bool.or_eq_false_iff, Bool.or_eq_false_iff] at htags
  exact ⟨htags.1.1, htags.1.2, htags.2, h.2⟩

/-- Resolving for Claude undoes exactly the Claude-authored edits
recorded by `Edits` over a marker-free original: pass 1 followed by
pass 2 maps the edited child forest back to the original child forest. -/
theorem resolve_edits {cs cs' : List XNode} (hE : Edits cs cs') :
    markerFreeL cs = true → unwrapDels (dropClaudeInsL cs') = cs := by
  induction hE with
  | nil => intro _; rfl
  | keep g a x hcs hos ihcs ihos =>
    intro hmf
    rw [markerFreeL, Bool.and_eq_true] at hmf
    obtain ⟨h1, h2, _, h4⟩ := markerFree_parts hmf.1
    rw [dropClaudeInsL]
    rw [if_neg (by rw [isClaudeIns_mk, h1]; simp)]
    rw [dropClaudeIns_def, List.singleton_append]
    rw [unwrapDels_cons]
    rw [if_neg (by rw [XNode.tag, XNode.attrs, isClaudeDel_mk, h2]; simp)]
    rw [pass2_def]
    simp only [XNode.tag, XNode.attrs, XNode.text, XNode.children,
      List.singleton_append]
    rw [ihcs h4, ihos hmf.2]
  | insAdd a x k hauth hos ih =>
    intro hmf
    rw [dropClaudeInsL]
    rw [if_pos (by rw [isClaudeIns_mk, hauth]; simp)]
    rw [List.nil_append]
    exact ih hmf
  | delWrap a x hauth hos ih =>
    rename_i o os es
    intro hmf
    rw [markerFreeL, Bool.and_eq_true] at hmf
    obtain ⟨hins, hdel, hdt⟩ := (markerFree_no_markers.1 _ hmf.1)
    rw [dropClaudeInsL]
    rw [if_neg (by rw [isClaudeIns_mk, delTag_ne_insTag]; simp)]
    rw [dropClaudeIns_def, List.singleton_append]
    simp only [XNode.tag, XNode.attrs, XNode.text, XNode.children]
    have hwIns : hasClaudeIns (wrapDelText o) = false := by
      rw [hasClaudeIns_wrapDelText.1]
      exact hins
    have hdropw : dropClaudeInsL [wrapDelText o] = [wrapDelText o] := by
      rw [dropClaudeInsL]
      rw [if_neg (by rw [(hasClaudeIns_parts hwIns).1]; simp)]
      rw [dropClaudeIns_id.1 _ hwIns]
      rfl
    rw [hdropw]
    rw [unwrapDels_cons]
    rw [if_pos (by rw [isClaudeDel_mk, hauth]; simp)]
    simp only [XNode.children]
    rw [pass2RL]
    rw [pass2R_eq.1]
    rw [renameDelText_wrapDelText.1 _ hdt]
    rw [pass2_id.1 _ hdel]
    rw [pass2RL]
    rw [List.singleton_append]
    rw [ih hmf.2]

/-- Resolving for Claude is the identity on a tree whose children are
marker-free (the root element itself is never removed or unwrapped). -/
theorem resolve_markerFree (g : String) (a : List (String × String))
    (x : Option String) {cs : List XNode} (h : markerFreeL cs = true) :
    remove_claude_tracked_changes (.mk g a x cs) = .mk g a x cs := by
  unfold remove_claude_tracked_changes
  rw [dropClaudeIns_def]
  simp only [XNode.tag, XNode.attrs, XNode.text, XNode.children]
  rw [dropClaudeIns_id.2 _ (markerFree_no_markers.2 _ h).1]
  rw [pass2_def]
  simp only [XNode.tag, XNode.attrs, XNode.text, XNode.children]
  rw [pass2_id.2 _ (markerFree_no_markers.2 _ h).2.1]

/-- The comparison check passes whenever the two projections agree after
resolution (both branches of `validate` return `PASSED` then). -/
theorem validate_redlining_passed_of_eq {m o : XNode}
    (h : extract_text_content (remove_claude_tracked_changes m) =
      extract_text_content (remove_claude_tracked_changes o)) :
    validate_redlining m o = .passed := by
  unfold validate_redlining
  by_cases hb : (((findTagL delTag m.children).filter
        (fun e => attrGet e.attrs authorAttr == some "Claude")).isEmpty &&
      ((findTagL insTag m.children).filter
        (fun e => attrGet e.attrs authorAttr == some "Claude")).isEmpty) = true
  · simp only [hb, if_true]
  · simp only [hb, if_false, h]
    simp

/-- C1 (corrected): for an edited document whose text differs from the
original but that contains no tracked-change markers at all, the
redlining comparison check reports overall success, not failure: the
marker scan finds no target-author tracked changes, so the comparison is
skipped entirely and `PASSED` is returned without any diff. -/
theorem claim_C1 (m o : XNode)
    (_hdiff : extract_text_content m ≠ extract_text_content o)
    (hdel : findTagL delTag m.children = [])
    (hins : findTagL insTag m.children = []) :
    validate_redlining m o = .passed := by
  unfold validate_redlining
  rw [hdel, hins]
  simp

/-- C1 counterexample: the edited document replaces `"world."` by
`"there."` with no tracked-change markers at all; its projection differs
from the original's, yet `validate` returns `PASSED` (the claimed `FAIL`
with a diff does not happen): `redlining.py` lines 53–57 return `True`
as soon as no Claude-authored `w:ins`/`w:del` is found. -/
theorem claim_C1_counterexample :
    extract_text_content editedUntracked ≠ extract_text_content origHello ∧
    findTagL delTag editedUntracked.children = [] ∧
    findTagL insTag editedUntracked.children = [] ∧
    validate_redlining editedUntracked origHello = .passed := by
  refine ⟨by decide, rfl, rfl, rfl⟩

/-- C1 witness: the amended statement applied to the concrete
untracked-edit document. -/
theorem claim_C1_witness :
    validate_redlining editedUntracked origHello = .passed :=
  claim_C1 editedUntracked origHello (by decide) rfl rfl

/-- C2 (confirmed): when the edited tree equals the original tree plus
only Claude-authored insertions and deletions (relation `Edits`, original
marker-free), resolving the edited tree for Claude and projecting it
yields exactly the original tree's projection, and the comparison check
passes. -/
theorem claim_C2 (g : String) (a : List (String × String)) (x : Option String)
    {cs cs' : List XNode} (hE : Edits cs cs') (hmf : markerFreeL cs = true) :
    extract_text_content (remove_claude_tracked_changes (.mk g a x cs')) =
      extract_text_content (.mk g a x cs) ∧
    validate_redlining (.mk g a x cs') (.mk g a x cs) = .passed := by
  have hmod : remove_claude_tracked_changes (.mk g a x cs') = .mk g a x cs := by
    unfold remove_claude_tracked_changes
    rw [dropClaudeIns_def]
    simp only [XNode.tag, XNode.attrs, XNode.text, XNode.children]
    rw [pass2_def]
    simp only [XNode.tag, XNode.attrs, XNode.text, XNode.children]
    rw [resolve_edits hE hmf]
  refine ⟨by rw [hmod], ?_⟩
  apply validate_redlining_passed_of_eq
  rw [hmod, resolve_markerFree g a x hmf]

/-- C2 witness: the spec's end-to-end pass example — `"Hello world."`
edited into a Claude insertion `"Hello there,"` plus a Claude deletion
wrapping the original run — resolves back to the original projection and
passes. -/
theorem claim_C2_witness :
    markerFreeL [bodyEl [pEl [rEl [tEl "Hello world."]]]] = true ∧
    extract_text_content (remove_claude_tracked_changes editedTracked) =
      extract_text_content origHello ∧
    validate_redlining editedTracked origHello = .passed := by
  have hmf : markerFreeL [bodyEl [pEl [rEl [tEl "Hello world."]]]] = true := by decide
  have hauth : attrGet [(authorAttr, "Claude")] authorAttr = some "Claude" := by decide
  have h0 : Edits ([] : List XNode) [] := .nil
  have h1 : Edits [rEl [tEl "Hello world."]]
      [insClaude [rEl [tEl "Hello there,"]],
        XNode.mk delTag [(authorAttr, "Claude")] none
          [wrapDelText (rEl [tEl "Hello world."])]] :=
    .insAdd _ _ _ hauth (.delWrap _ _ hauth h0)
  have h2 : Edits [pEl [rEl [tEl "Hello world."]]]
      [pEl [insClaude [rEl [tEl "Hello there,"]],
        XNode.mk delTag [(authorAttr, "Claude")] none
          [wrapDelText (rEl [tEl "Hello world."])]]] :=
    .keep pTag [] none h1 h0
  have h3 : Edits [bodyEl [pEl [rEl [tEl "Hello world."]]]]
      [bodyEl [pEl [insClaude [rEl [tEl "Hello there,"]],
        XNode.mk delTag [(authorAttr, "Claude")] none
          [wrapDelText (rEl [tEl "Hello world."])]]]] :=
    .keep (wTag "body") [] none h2 h0
  have hres := claim_C2 (wTag "document") [] none h3 hmf
  exact ⟨hmf, hres.1, hres.2⟩

/-! ## Convenience forms of the pass equations -/

theorem dropClaudeInsL_nil : dropClaudeInsL [] = [] := rfl

theorem unwrapDels_nil : unwrapDels [] = [] := rfl

theorem pass2RL_nil : pass2RL [] = [] := rfl

theorem dropClaudeInsL_cons_keep {c : XNode} (h : isClaudeIns c = false)
    (rest : List XNode) :
    dropClaudeInsL (c :: rest) = dropClaudeIns c :: dropClaudeInsL rest := by
  rw [dropClaudeInsL, if_neg (by simp [h]), List.singleton_append]

theorem dropClaudeInsL_cons_drop {c : XNode} (h : isClaudeIns c = true)
    (rest : List XNode) :
    dropClaudeInsL (c :: rest) = dropClaudeInsL rest := by
  rw [dropClaudeInsL, if_pos h, List.nil_append]

theorem unwrapDels_cons_keep {c : XNode} (h : isClaudeDel c = false)
    (rest : List XNode) :
    unwrapDels (c :: rest) = pass2 c :: unwrapDels rest := by
  rw [unwrapDels_cons, if_neg (by simp [h]), List.singleton_append]

theorem unwrapDels_cons_del {c : XNode} (h : isClaudeDel c = true)
    (rest : List XNode) :
    unwrapDels (c :: rest) = pass2RL c.children ++ unwrapDels rest := by
  rw [unwrapDels_cons, if_pos h]

/-- C3 (amended, the preserved part): for an insertion by another author
containing a deletion by Claude, resolving for Claude restores the
deleted fragment as ordinary live content while the other author's
insertion marker node — tag, attributes, text — remains structurally
intact around it. -/
theorem claim_C3 (g : String) (a : List (String × String))
    (x bx dx : Option String) (battrs dattrs : List (String × String))
    (f : XNode)
    (hB : (attrGet battrs authorAttr == some "Claude") = false)
    (hD : attrGet dattrs authorAttr = some "Claude")
    (hf : markerFree f = true) :
    remove_claude_tracked_changes
      (.mk g a x [.mk insTag battrs bx [.mk delTag dattrs dx [wrapDelText f]]]) =
      .mk g a x [.mk insTag battrs bx [f]] := by
  obtain ⟨hins, hdel, hdt⟩ := markerFree_no_markers.1 f hf
  have hwIns : hasClaudeIns (wrapDelText f) = false := by
    rw [hasClaudeIns_wrapDelText.1]
    exact hins
  have hiB : isClaudeIns (XNode.mk insTag battrs bx
      [XNode.mk delTag dattrs dx [wrapDelText f]]) = false := by
    rw [isClaudeIns_mk, hB]
    simp
  have hiD : isClaudeIns (XNode.mk delTag dattrs dx [wrapDelText f]) = false := by
    rw [isClaudeIns_mk, delTag_ne_insTag]
    simp
  unfold remove_claude_tracked_changes
  rw [dropClaudeIns_def]
  simp only [XNode.tag, XNode.attrs, XNode.text, XNode.children]
  rw [dropClaudeInsL_cons_keep hiB, dropClaudeInsL_nil, dropClaudeIns_def]
  simp only [XNode.tag, XNode.attrs, XNode.text, XNode.children]
  rw [dropClaudeInsL_cons_keep hiD, dropClaudeInsL_nil, dropClaudeIns_def]
  simp only [XNode.tag, XNode.attrs, XNode.text, XNode.children]
  rw [dropClaudeInsL_cons_keep (hasClaudeIns_parts hwIns).1, dropClaudeInsL_nil]
  rw [dropClaudeIns_id.1 _ hwIns]
  rw [pass2_def]
  simp only [XNode.tag, XNode.attrs, XNode.text, XNode.children]
  have hdB : isClaudeDel (XNode.mk insTag battrs bx
      [XNode.mk delTag dattrs dx [wrapDelText f]]) = false := by
    rw [isClaudeDel_mk, insTag_ne_delTag]
    simp
  rw [unwrapDels_cons_keep hdB, unwrapDels_nil, pass2_def]
  simp only [XNode.tag, XNode.attrs, XNode.text, XNode.children]
  have hdD : isClaudeDel (XNode.mk delTag dattrs dx [wrapDelText f]) = true := by
    rw [isClaudeDel_mk, hD]
    simp
  rw [unwrapDels_cons_del hdD, unwrapDels_nil]
  simp only [XNode.children]
  rw [pass2RL, pass2RL_nil]
  rw [pass2R_eq.1, renameDelText_wrapDelText.1 _ hdt, pass2_id.1 _ hdel]
  simp

/-- C3 counterexample: a Claude deletion wrapping another author's
(`"Bob"`'s) deletion. Resolving for Claude rewrites the `w:delText`
inside Bob's marker to ordinary `w:t` — descendant content of another
author's marker *is* rewritten, refuting the universal claim.  (The
input holds one `w:delText` node; the output holds none, while Bob's
`w:del` node itself is still present.) -/
theorem claim_C3_counterexample :
    remove_claude_tracked_changes claudeDelAroundBobDel =
      docEl [bodyEl [pEl [XNode.mk delTag [(authorAttr, "Bob")] none
        [XNode.mk tTag [] (some "x") []]]]] ∧
    (findTagL delTextTag claudeDelAroundBobDel.children).length = 1 ∧
    (findTagL delTextTag
      (remove_claude_tracked_changes claudeDelAroundBobDel).children).length = 0 ∧
    (findTagL delTag
      (remove_claude_tracked_changes claudeDelAroundBobDel).children).length = 1 := by
  exact ⟨rfl, rfl, rfl, rfl⟩

/-- C3 witness: the amended statement at a concrete Bob-insertion
containing a Claude deletion of the fragment `"frag"`. -/
theorem claim_C3_witness :
    remove_claude_tracked_changes
      (docEl [XNode.mk insTag [(authorAttr, "Bob")] none
        [XNode.mk delTag [(authorAttr, "Claude")] none
          [wrapDelText (rEl [tEl "frag"])]]]) =
      docEl [XNode.mk insTag [(authorAttr, "Bob")] none [rEl [tEl "frag"]]] :=
  claim_C3 (wTag "document") [] none none none [(authorAttr, "Bob")]
    [(authorAttr, "Claude")] (rEl [tEl "frag"]) (by decide) (by decide) (by decide)

/-! ## Marker elimination by the resolver (for the nesting claim) -/

theorem unwrapDelsR_nil : unwrapDelsR [] = [] := rfl

theorem unwrapDelsR_cons_keep {c : XNode} (h : isClaudeDel c = false)
    (rest : List XNode) :
    unwrapDelsR (c :: rest) = pass2R c :: unwrapDelsR rest := by
  rw [unwrapDelsR_cons, if_neg (by simp [h]), List.singleton_append]

theorem unwrapDelsR_cons_del {c : XNode} (h : isClaudeDel c = true)
    (rest : List XNode) :
    unwrapDelsR (c :: rest) = pass2RL c.children ++ unwrapDelsR rest := by
  rw [unwrapDelsR_cons, if_pos h]

theorem pass2RL_cons (c : XNode) (cs : List XNode) :
    pass2RL (c :: cs) = pass2R c :: pass2RL cs := rfl

theorem hasClaudeDelL_cons (c : XNode) (cs : List XNode) :
    hasClaudeDelL (c :: cs) = (hasClaudeDel c || hasClaudeDelL cs) := rfl

theorem hasClaudeInsL_cons (c : XNode) (cs : List XNode) :
    hasClaudeInsL (c :: cs) = (hasClaudeIns c || hasClaudeInsL cs) := rfl

theorem rnTag_ne_delTextTag (g : String) :
    ((if g = delTextTag then tTag else g) == delTextTag) = false := by
  by_cases h : g = delTextTag
  · simp [h]
    decide
  · simp [h]

theorem noDelDel_parts' {c : XNode} (h : noDelDel c = true) :
    (isClaudeDel c = true → (c.children.any isClaudeDel) = false) ∧
      noDelDelL c.children = true := by
  cases c with
  | mk g a x cs =>
    rw [noDelDel, Bool.and_eq_true] at h
    refine ⟨?_, h.2⟩
    intro hd
    have h1 := h.1
    rw [hd] at h1
    simpa using h1

theorem cleanDels_parts' {c : XNode} (h : cleanDels c = true) :
    (isClaudeDel c = true → dtFreeL c.children = true) ∧
      cleanDelsL c.children = true := by
  cases c with
  | mk g a x cs =>
    rw [cleanDels, Bool.and_eq_true] at h
    refine ⟨?_, h.2⟩
    intro hd
    have h1 := h.1
    rw [hd] at h1
    simpa using h1

theorem dtFree_parts' {c : XNode} (h : dtFree c = true) :
    (c.tag == delTextTag) = false ∧ dtFreeL c.children = true := by
  cases c with
  | mk g a x cs =>
    rw [dtFree, Bool.and_eq_true, Bool.not_eq_true'] at h
    exact h

theorem isClaudeDel_dropClaudeIns (c : XNode) :
    isClaudeDel (dropClaudeIns c) = isClaudeDel c := by
  cases c with
  | mk g a x cs => rfl

theorem noDelDel_dropClaudeIns :
    (∀ c, noDelDel c = true → noDelDel (dropClaudeIns c) = true) ∧
    (∀ cs, (noDelDelL cs = true → noDelDelL (dropClaudeInsL cs) = true) ∧
      ((cs.any isClaudeDel) = false →
        ((dropClaudeInsL cs).any isClaudeDel) = false)) := by
  refine xnode_mutual_ind _ _ ?_ ?_ ?_
  · intro g a x cs hq h
    obtain ⟨h1, h2⟩ := noDelDel_parts' h
    rw [dropClaudeIns_def]
    simp only [XNode.tag, XNode.attrs, XNode.text, XNode.children]
    rw [noDelDel, Bool.and_eq_true]
    refine ⟨?_, hq.1 h2⟩
    rw [isClaudeDel_mk]
    by_cases hd : (g == delTag && attrGet a authorAttr == some "Claude") = true
    · rw [hd]
      have h3 := hq.2 (h1 (by rw [isClaudeDel_mk]; exact hd))
      rw [h3]
      rfl
    · rw [Bool.eq_false_iff.mpr hd]
      rfl
  · exact ⟨fun _ => rfl, fun _ => rfl⟩
  · intro c cs hp hq
    constructor
    · intro h
      rw [noDelDelL, Bool.and_eq_true] at h
      by_cases hi : isClaudeIns c = true
      · rw [dropClaudeInsL_cons_drop hi]
        exact hq.1 h.2
      · rw [dropClaudeInsL_cons_keep (Bool.eq_false_iff.mpr hi)]
        rw [noDelDelL, Bool.and_eq_true]
        exact ⟨hp h.1, hq.1 h.2⟩
    · intro h
      rw [List.any_cons, Bool.or_eq_false_iff] at h
      by_cases hi : isClaudeIns c = true
      · rw [dropClaudeInsL_cons_drop hi]
        exact hq.2 h.2
      · rw [dropClaudeInsL_cons_keep (Bool.eq_false_iff.mpr hi)]
        rw [List.any_cons, Bool.or_eq_false_iff]
        exact ⟨by rw [isClaudeDel_dropClaudeIns]; exact h.1, hq.2 h.2⟩

/-- Pass 2 eliminates every Claude `w:del` from a forest in which no
Claude `w:del` is a direct child of a Claude `w:del`. -/
theorem unwrapDels_no_del :
    (∀ c, (isClaudeDel c = false → noDelDel c = true →
        hasClaudeDel (pass2 c) = false ∧ hasClaudeDel (pass2R c) = false) ∧
      (noDelDelL c.children = true →
        hasClaudeDelL (unwrapDels c.children) = false ∧
        hasClaudeDelL (unwrapDelsR c.children) = false) ∧
      (noDelDelL c.children = true → (c.children.any isClaudeDel) = false →
        hasClaudeDelL (pass2RL c.children) = false)) ∧
    (∀ cs, (noDelDelL cs = true →
        hasClaudeDelL (unwrapDels cs) = false ∧
        hasClaudeDelL (unwrapDelsR cs) = false) ∧
      (noDelDelL cs = true → (cs.any isClaudeDel) = false →
        hasClaudeDelL (pass2RL cs) = false)) := by
  refine xnode_mutual_ind _ _ ?_ ?_ ?_
  · intro g a x cs hq
    refine ⟨?_, hq.1, hq.2⟩
    intro hd hnn
    obtain ⟨_, h2⟩ := noDelDel_parts' hnn
    have hdflat : (g == delTag && attrGet a authorAttr == some "Claude") = false := by
      rw [isClaudeDel_mk] at hd
      exact hd
    constructor
    · rw [pass2_def]
      simp only [XNode.tag, XNode.attrs, XNode.text, XNode.children]
      rw [hasClaudeDel, isClaudeDel_mk, hdflat, (hq.1 h2).1]
      rfl
    · rw [pass2R_def]
      simp only [XNode.tag, XNode.attrs, XNode.text, XNode.children]
      rw [hasClaudeDel, isClaudeDel_mk, rnTag_eq_delTag, hdflat, (hq.1 h2).2]
      rfl
  · exact ⟨fun _ => ⟨rfl, rfl⟩, fun _ _ => rfl⟩
  · intro c cs hp hq
    constructor
    · intro h
      rw [noDelDelL, Bool.and_eq_true] at h
      by_cases hd : isClaudeDel c = true
      · obtain ⟨hany, hnnl⟩ := noDelDel_parts' h.1
        have hhead := hp.2.2 hnnl (hany hd)
        rw [unwrapDels_cons_del hd, unwrapDelsR_cons_del hd,
          hasClaudeDelL_append, hasClaudeDelL_append, hhead]
        exact ⟨by rw [(hq.1 h.2).1]; rfl, by rw [(hq.1 h.2).2]; rfl⟩
      · have hd' := Bool.eq_false_iff.mpr hd
        have hhead := hp.1 hd' h.1
        rw [unwrapDels_cons_keep hd', unwrapDelsR_cons_keep hd',
          hasClaudeDelL_cons, hasClaudeDelL_cons, hhead.1, hhead.2]
        exact ⟨by rw [(hq.1 h.2).1]; rfl, by rw [(hq.1 h.2).2]; rfl⟩
    · intro h hany
      rw [noDelDelL, Bool.and_eq_true] at h
      rw [List.any_cons, Bool.or_eq_false_iff] at hany
      rw [pass2RL_cons, hasClaudeDelL_cons]
      rw [(hp.1 hany.1 h.1).2, hq.2 h.2 hany.2]
      rfl

/-- Pass 2 introduces no Claude `w:ins`: insertion-freedom is preserved. -/
theorem unwrapDels_no_ins_pres :
    (∀ c, (hasClaudeIns c = false →
        hasClaudeIns (pass2 c) = false ∧ hasClaudeIns (pass2R c) = false) ∧
      (hasClaudeInsL c.children = false →
        hasClaudeInsL (unwrapDels c.children) = false ∧
        hasClaudeInsL (unwrapDelsR c.children) = false ∧
        hasClaudeInsL (pass2RL c.children) = false)) ∧
    (∀ cs, hasClaudeInsL cs = false →
      hasClaudeInsL (unwrapDels cs) = false ∧
      hasClaudeInsL (unwrapDelsR cs) = false ∧
      hasClaudeInsL (pass2RL cs) = false) := by
  refine xnode_mutual_ind _ _ ?_ ?_ ?_
  · intro g a x cs hq
    refine ⟨?_, hq⟩
    intro h
    obtain ⟨h1, h2⟩ := hasClaudeIns_parts h
    have h1flat : (g == insTag && attrGet a authorAttr == some "Claude") = false := by
      rw [isClaudeIns_mk] at h1
      exact h1
    constructor
    · rw [pass2_def]
      simp only [XNode.tag, XNode.attrs, XNode.text, XNode.children]
      rw [hasClaudeIns, isClaudeIns_mk, h1flat, (hq h2).1]
      rfl
    · rw [pass2R_def]
      simp only [XNode.tag, XNode.attrs, XNode.text, XNode.children]
      rw [hasClaudeIns, isClaudeIns_mk, rnTag_eq_insTag, h1flat, (hq h2).2.1]
      rfl
  · exact fun _ => ⟨rfl, rfl, rfl⟩
  · intro c cs hp hq h
    rw [hasClaudeInsL_cons, Bool.or_eq_false_iff] at h
    have hcparts := hasClaudeIns_parts h.1
    refine ⟨?_, ?_, ?_⟩
    · by_cases hd : isClaudeDel c = true
      · rw [unwrapDels_cons_del hd, hasClaudeInsL_append,
          (hp.2 hcparts.2).2.2, (hq h.2).1]
        rfl
      · rw [unwrapDels_cons_keep (Bool.eq_false_iff.mpr hd), hasClaudeInsL_cons,
          (hp.1 h.1).1, (hq h.2).1]
        rfl
    · by_cases hd : isClaudeDel c = true
      · rw [unwrapDelsR_cons_del hd, hasClaudeInsL_append,
          (hp.2 hcparts.2).2.2, (hq h.2).2.1]
        rfl
      · rw [unwrapDelsR_cons_keep (Bool.eq_false_iff.mpr hd), hasClaudeInsL_cons,
          (hp.1 h.1).2, (hq h.2).2.1]
        rfl
    · rw [pass2RL_cons, hasClaudeInsL_cons, (hp.1 h.1).2, (hq h.2).2.2]
      rfl

/-- C4 (amended): after the resolver runs for Claude, no Claude `w:ins`
remains anywhere, and — provided no Claude `w:del` was a direct child of
another Claude `w:del` (and the root element is itself no Claude
marker) — no Claude `w:del` remains either: no target-author marker is
reachable in the result. -/
theorem claim_C4 (n : XNode) (hi : isClaudeIns n = false)
    (hd : isClaudeDel n = false) (hnn : noDelDel n = true) :
    hasClaudeMarker (remove_claude_tracked_changes n) = false := by
  cases n with
  | mk g a x cs =>
    obtain ⟨_, hnnl⟩ := noDelDel_parts' hnn
    unfold remove_claude_tracked_changes
    rw [dropClaudeIns_def]
    simp only [XNode.tag, XNode.attrs, XNode.text, XNode.children]
    rw [pass2_def]
    simp only [XNode.tag, XNode.attrs, XNode.text, XNode.children]
    have hinsL : hasClaudeInsL (dropClaudeInsL cs) = false := dropClaudeIns_no_ins.2 cs
    have hnnL : noDelDelL (dropClaudeInsL cs) = true :=
      (noDelDel_dropClaudeIns.2 cs).1 hnnl
    rw [hasClaudeMarker, Bool.or_eq_false_iff]
    constructor
    · rw [hasClaudeIns, isClaudeIns_mk]
      rw [isClaudeIns_mk] at hi
      rw [hi, (unwrapDels_no_ins_pres.2 _ hinsL).1]
      rfl
    · rw [hasClaudeDel, isClaudeDel_mk]
      rw [isClaudeDel_mk] at hd
      rw [hd, ((unwrapDels_no_del.2 _).1 hnnL).1]
      rfl

/-- C4 counterexample: a Claude `w:del` directly inside a Claude
`w:del`.  After the resolver runs, the inner deletion marker is still
reachable (the single top-down pass splices it into an already-visited
parent and never unwraps it), refuting "no target-author marker remains
reachable" for arbitrary nesting. -/
theorem claim_C4_counterexample :
    remove_claude_tracked_changes delInDel =
      docEl [bodyEl [pEl [delClaude [XNode.mk tTag [] (some "x") []]]]] ∧
    hasClaudeMarker (remove_claude_tracked_changes delInDel) = true := ⟨rfl, rfl⟩

/-- C4 witness: the amended statement at the tracked-edit document (an
insertion and a deletion by Claude, no deletion directly inside a
deletion): nothing Claude-authored survives resolution. -/
theorem claim_C4_witness :
    hasClaudeMarker (remove_claude_tracked_changes editedTracked) = false :=
  claim_C4 editedTracked (by decide) (by decide) (by decide)

/-! ## Output invariants of the resolver (for idempotence) -/

theorem dtFree_cleanDels :
    (∀ c, dtFree c = true → cleanDels c = true) ∧
    (∀ cs, dtFreeL cs = true → cleanDelsL cs = true) := by
  refine xnode_mutual_ind _ _ ?_ ?_ ?_
  · intro g a x cs hq h
    obtain ⟨_, h2⟩ := dtFree_parts' h
    rw [cleanDels, Bool.and_eq_true]
    refine ⟨?_, hq h2⟩
    simp only [XNode.children] at h2
    rw [h2]
    simp
  · intro _
    rfl
  · intro c cs hp hq h
    rw [dtFreeL, Bool.and_eq_true] at h
    rw [cleanDelsL, Bool.and_eq_true]
    exact ⟨hp h.1, hq h.2⟩

/-- Every Claude `w:del` present in pass-2 output has a
`w:delText`-free subtree, and all `pass2R`-processed content is
`w:delText`-free outright. -/
theorem unwrapDels_cleanDels :
    (∀ c, (isClaudeDel c = false → cleanDels (pass2 c) = true) ∧
      dtFree (pass2R c) = true ∧
      (cleanDelsL (unwrapDels c.children) = true ∧
        dtFreeL (unwrapDelsR c.children) = true ∧
        dtFreeL (pass2RL c.children) = true)) ∧
    (∀ cs, cleanDelsL (unwrapDels cs) = true ∧
      dtFreeL (unwrapDelsR cs) = true ∧
      dtFreeL (pass2RL cs) = true) := by
  refine xnode_mutual_ind _ _ ?_ ?_ ?_
  · intro g a x cs hq
    refine ⟨?_, ?_, hq⟩
    · intro hd
      rw [pass2_def]
      simp only [XNode.tag, XNode.attrs, XNode.text, XNode.children]
      rw [cleanDels, Bool.and_eq_true]
      refine ⟨?_, hq.1⟩
      rw [isClaudeDel_mk]
      rw [isClaudeDel_mk] at hd
      rw [hd]
      simp
    · rw [pass2R_def]
      simp only [XNode.tag, XNode.attrs, XNode.text, XNode.children]
      rw [dtFree, rnTag_ne_delTextTag, hq.2.1]
      rfl
  · exact ⟨rfl, rfl, rfl⟩
  · intro c cs hp hq
    refine ⟨?_, ?_, ?_⟩
    · by_cases hd : isClaudeDel c = true
      · rw [unwrapDels_cons_del hd, cleanDelsL_append,
          dtFree_cleanDels.2 _ hp.2.2.2.2, hq.1]
        rfl
      · rw [unwrapDels_cons_keep (Bool.eq_false_iff.mpr hd), cleanDelsL,
          hp.1 (Bool.eq_false_iff.mpr hd), hq.1]
        rfl
    · by_cases hd : isClaudeDel c = true
      · rw [unwrapDelsR_cons_del hd, dtFreeL_append, hp.2.2.2.2, hq.2.1]
        rfl
      · rw [unwrapDelsR_cons_keep (Bool.eq_false_iff.mpr hd), dtFreeL,
          hp.2.1, hq.2.1]
        rfl
    · rw [pass2RL_cons, dtFreeL, hp.2.1, hq.2.2]
      rfl

/-- Pass 2 preserves the text projection on forests whose Claude
`w:del` elements have `w:delText`-free subtrees: unwrapping such a
deletion splices its children in place and renames nothing, so neither
the paragraph sequence nor any paragraph's text changes. -/
theorem unwrapDels_projection :
    (∀ c, (cleanDels c = true →
        tJoin (pass2 c) = tJoin c ∧ paraTexts (pass2 c) = paraTexts c) ∧
      (dtFree c = true →
        tJoin (pass2R c) = tJoin c ∧ paraTexts (pass2R c) = paraTexts c) ∧
      (cleanDelsL c.children = true →
        tJoinL (unwrapDels c.children) = tJoinL c.children ∧
        paraTextsL (unwrapDels c.children) = paraTextsL c.children) ∧
      (dtFreeL c.children = true →
        tJoinL (unwrapDelsR c.children) = tJoinL c.children ∧
        paraTextsL (unwrapDelsR c.children) = paraTextsL c.children ∧
        tJoinL (pass2RL c.children) = tJoinL c.children ∧
        paraTextsL (pass2RL c.children) = paraTextsL c.children)) ∧
    (∀ cs, (cleanDelsL cs = true →
        tJoinL (unwrapDels cs) = tJoinL cs ∧
        paraTextsL (unwrapDels cs) = paraTextsL cs) ∧
      (dtFreeL cs = true →
        tJoinL (unwrapDelsR cs) = tJoinL cs ∧
        paraTextsL (unwrapDelsR cs) = paraTextsL cs ∧
        tJoinL (pass2RL cs) = tJoinL cs ∧
        paraTextsL (pass2RL cs) = paraTextsL cs)) := by
  refine xnode_mutual_ind _ _ ?_ ?_ ?_
  · intro g a x cs hq
    refine ⟨?_, ?_, hq.1, hq.2⟩
    · intro hc
      obtain ⟨_, h2⟩ := cleanDels_parts' hc
      obtain ⟨ht, hpp⟩ := hq.1 h2
      constructor
      · rw [pass2_def]
        simp only [XNode.tag, XNode.attrs, XNode.text, XNode.children]
        rw [tJoin, tJoin, ht]
      · rw [pass2_def]
        simp only [XNode.tag, XNode.attrs, XNode.text, XNode.children]
        rw [paraTexts, paraTexts, ht, hpp]
    · intro hdf
      obtain ⟨h1, h2⟩ := dtFree_parts' hdf
      simp only [XNode.tag] at h1
      simp only [XNode.children] at h2
      obtain ⟨ht, hpp, _, _⟩ := hq.2 h2
      have hg : ¬ g = delTextTag := by
        intro hcontra
        rw [hcontra] at h1
        simp at h1
      constructor
      · rw [pass2R_def]
        simp only [XNode.tag, XNode.attrs, XNode.text, XNode.children]
        rw [if_neg hg, tJoin, tJoin, ht]
      · rw [pass2R_def]
        simp only [XNode.tag, XNode.attrs, XNode.text, XNode.children]
        rw [if_neg hg, paraTexts, paraTexts, ht, hpp]
  · exact ⟨fun _ => ⟨rfl, rfl⟩, fun _ => ⟨rfl, rfl, rfl, rfl⟩⟩
  · intro c cs hp hq
    constructor
    · intro h
      rw [cleanDelsL, Bool.and_eq_true] at h
      by_cases hd : isClaudeDel c = true
      · obtain ⟨hdt, _⟩ := cleanDels_parts' h.1
        obtain ⟨_, _, hrt, hrp⟩ := hp.2.2.2 (hdt hd)
        have hgdel : c.tag = delTag := by
          cases c with
          | mk g a x ccs =>
            rw [isClaudeDel_mk] at hd
            exact eq_of_beq ((Bool.and_eq_true _ _).mp hd).1
        have htc : tJoin c = tJoinL c.children := by
          cases c with
          | mk g a x ccs =>
            simp only [XNode.tag] at hgdel
            rw [tJoin, hgdel, if_neg (by rw [delTag_ne_tTag]; exact not_false)]
            simp [XNode.children]
        have hpc : paraTexts c = paraTextsL c.children := by
          cases c with
          | mk g a x ccs =>
            simp only [XNode.tag] at hgdel
            rw [paraTexts, hgdel, if_neg (by rw [delTag_ne_pTag]; exact not_false)]
            simp [XNode.children]
        constructor
        · rw [unwrapDels_cons_del hd, tJoinL_append, hrt, (hq.1 h.2).1,
            tJoinL, htc]
        · rw [unwrapDels_cons_del hd, paraTextsL_append, hrp, (hq.1 h.2).2,
            paraTextsL, hpc]
      · obtain ⟨ht, hpp⟩ := hp.1 h.1
        constructor
        · rw [unwrapDels_cons_keep (Bool.eq_false_iff.mpr hd), tJoinL, tJoinL,
            ht, (hq.1 h.2).1]
        · rw [unwrapDels_cons_keep (Bool.eq_false_iff.mpr hd), paraTextsL,
            paraTextsL, hpp, (hq.1 h.2).2]
    · intro h
      rw [dtFreeL, Bool.and_eq_true] at h
      obtain ⟨hqt, hqp, hqrt, hqrp⟩ := hq.2 h.2
      by_cases hd : isClaudeDel c = true
      · obtain ⟨_, hdtl⟩ := dtFree_parts' h.1
        obtain ⟨_, _, hrt, hrp⟩ := hp.2.2.2 hdtl
        have hgdel : c.tag = delTag := by
          cases c with
          | mk g a x ccs =>
            rw [isClaudeDel_mk] at hd
            exact eq_of_beq ((Bool.and_eq_true _ _).mp hd).1
        have htc : tJoin c = tJoinL c.children := by
          cases c with
          | mk g a x ccs =>
            simp only [XNode.tag] at hgdel
            rw [tJoin, hgdel, if_neg (by rw [delTag_ne_tTag]; exact not_false)]
            simp [XNode.children]
        have hpc : paraTexts c = paraTextsL c.children := by
          cases c with
          | mk g a x ccs =>
            simp only [XNode.tag] at hgdel
            rw [paraTexts, hgdel, if_neg (by rw [delTag_ne_pTag]; exact not_false)]
            simp [XNode.children]
        refine ⟨?_, ?_, ?_, ?_⟩
        · rw [unwrapDelsR_cons_del hd, tJoinL_append, hrt, hqt, tJoinL, htc]
        · rw [unwrapDelsR_cons_del hd, paraTextsL_append, hrp, hqp,
            paraTextsL, hpc]
        · rw [pass2RL_cons, tJoinL, (hp.2.1 h.1).1, hqrt, tJoinL]
        · rw [pass2RL_cons, paraTextsL, (hp.2.1 h.1).2, hqrp, paraTextsL]
      · obtain ⟨ht, hpp⟩ := hp.2.1 h.1
        refine ⟨?_, ?_, ?_, ?_⟩
        · rw [unwrapDelsR_cons_keep (Bool.eq_false_iff.mpr hd), tJoinL, tJoinL,
            ht, hqt]
        · rw [unwrapDelsR_cons_keep (Bool.eq_false_iff.mpr hd), paraTextsL,
            paraTextsL, hpp, hqp]
        · rw [pass2RL_cons, tJoinL, ht, hqrt, tJoinL]
        · rw [pass2RL_cons, paraTextsL, hpp, hqrp, paraTextsL]

/-- C6 (confirmed): resolution is idempotent at the projection level.
A tree with zero Claude markers resolves to itself, so its projection is
unchanged; and resolving twice projects the same as resolving once (a
second pass can only unwrap leftover same-author nested deletions, whose
subtrees were already renamed, which moves no text between paragraphs). -/
theorem claim_C6 (t : XNode) :
    (hasClaudeMarker t = false →
      extract_text_content (remove_claude_tracked_changes t) =
        extract_text_content t) ∧
    extract_text_content
        (remove_claude_tracked_changes (remove_claude_tracked_changes t)) =
      extract_text_content (remove_claude_tracked_changes t) := by
  cases t with
  | mk g a x cs =>
    have hinner : remove_claude_tracked_changes (XNode.mk g a x cs) =
        XNode.mk g a x (unwrapDels (dropClaudeInsL cs)) := by
      unfold remove_claude_tracked_changes
      rw [dropClaudeIns_def]
      simp only [XNode.tag, XNode.attrs, XNode.text, XNode.children]
      rw [pass2_def]
      simp only [XNode.tag, XNode.attrs, XNode.text, XNode.children]
    constructor
    · intro h
      rw [hasClaudeMarker, Bool.or_eq_false_iff] at h
      have h1 := (hasClaudeIns_parts h.1).2
      have h2 := (hasClaudeDel_parts h.2).2
      simp only [XNode.children] at h1 h2
      rw [hinner, dropClaudeIns_id.2 _ h1, pass2_id.2 _ h2]
    · have hinsUs : hasClaudeInsL (unwrapDels (dropClaudeInsL cs)) = false :=
        (unwrapDels_no_ins_pres.2 _ (dropClaudeIns_no_ins.2 cs)).1
      have hclean : cleanDelsL (unwrapDels (dropClaudeInsL cs)) = true :=
        (unwrapDels_cleanDels.2 (dropClaudeInsL cs)).1
      have houter : remove_claude_tracked_changes
          (XNode.mk g a x (unwrapDels (dropClaudeInsL cs))) =
          XNode.mk g a x (unwrapDels (unwrapDels (dropClaudeInsL cs))) := by
        unfold remove_claude_tracked_changes
        rw [dropClaudeIns_def]
        simp only [XNode.tag, XNode.attrs, XNode.text, XNode.children]
        rw [dropClaudeIns_id.2 _ hinsUs, pass2_def]
        simp only [XNode.tag, XNode.attrs, XNode.text, XNode.children]
      rw [hinner, houter]
      unfold extract_text_content
      simp only [XNode.children]
      rw [((unwrapDels_projection.2 _).1 hclean).2]

/-- C6 witness: the marker-free document projects identically before and
after resolution, and double resolution of the tracked-edit document
projects the same as single resolution. -/
theorem claim_C6_witness :
    hasClaudeMarker origHello = false ∧
    extract_text_content (remove_claude_tracked_changes origHello) =
      extract_text_content origHello ∧
    extract_text_content
        (remove_claude_tracked_changes (remove_claude_tracked_changes editedTracked)) =
      extract_text_content (remove_claude_tracked_changes editedTracked) :=
  ⟨by decide, (claim_C6 origHello).1 (by decide), (claim_C6 editedTracked).2⟩

/-- C7 (amended): when the well-formedness pre-check passes, every one
of the eight checks runs and reports, and the aggregate is the AND of
the outcomes of tests 1–7; when the pre-check fails, validation aborts
at once, reporting only that failure — the remaining checks do not run,
and the paragraph comparison is not reached. -/
theorem claim_C7 (c : ExternalChecks) (edited original : XNode) :
    (c.xmlOk = true →
      docx_validate c edited original =
        { result := c.uniqueIdsOk && c.fileRefsOk && c.contentTypesOk && c.xsdOk
            && validate_whitespace_preservation edited && validate_deletions edited
            && c.relIdsOk
          checksRun := [("xml_well_formed", true), ("unique_ids", c.uniqueIdsOk),
            ("file_references", c.fileRefsOk), ("content_types", c.contentTypesOk),
            ("xsd_schema", c.xsdOk),
            ("whitespace_preservation", validate_whitespace_preservation edited),
            ("deletions", validate_deletions edited),
            ("relationship_ids", c.relIdsOk)]
          paragraphCounts :=
            some (count_paragraphs original, count_paragraphs edited) }) ∧
    (c.xmlOk = false →
      docx_validate c edited original =
        { result := false
          checksRun := [("xml_well_formed", false)]
          paragraphCounts := none }) := by
  constructor
  · intro h
    unfold docx_validate
    rw [if_neg (by rw [h]; simp)]
  · intro h
    unfold docx_validate
    rw [if_pos h]

/-- C7 counterexample: with a malformed `document.xml` (well-formedness
check fails) and every other check fine, the orchestrator reports only
the well-formedness failure — the remaining independent checks do not
run and do not report, refuting "the remaining independent checks still
run and report their results". -/
theorem claim_C7_counterexample :
    (docx_validate ⟨false, true, true, true, true, true⟩ origHello origHello).result
        = false ∧
    (docx_validate ⟨false, true, true, true, true, true⟩ origHello origHello).checksRun
        = [("xml_well_formed", false)] := ⟨rfl, rfl⟩

/-- C7 witness: the amended statement at a concrete all-passing run. -/
theorem claim_C7_witness :
    docx_validate ⟨true, true, true, true, true, true⟩ origHello origHello =
      { result := true
        checksRun := [("xml_well_formed", true), ("unique_ids", true),
          ("file_references", true), ("content_types", true),
          ("xsd_schema", true), ("whitespace_preservation", true),
          ("deletions", true), ("relationship_ids", true)]
        paragraphCounts := some (1, 1) } :=
  (claim_C7 ⟨true, true, true, true, true, true⟩ origHello origHello).1 rfl

/-- C10 (confirmed): the paragraph-count comparison is purely
informational.  The aggregate returned by `validate` is the conjunction
of the well-formedness pre-check and tests 1–7; it does not depend on
the original document at all — which only feeds the paragraph-count
line — so a paragraph-count mismatch never changes the aggregate. -/
theorem claim_C10 (c : ExternalChecks) (edited o1 o2 : XNode) :
    (docx_validate c edited o1).result = (docx_validate c edited o2).result ∧
    (docx_validate c edited o1).result =
      (c.xmlOk && (c.uniqueIdsOk && c.fileRefsOk && c.contentTypesOk && c.xsdOk
        && validate_whitespace_preservation edited && validate_deletions edited
        && c.relIdsOk)) := by
  unfold docx_validate
  by_cases h : c.xmlOk = false
  · rw [if_pos h, if_pos h, h]
    exact ⟨rfl, rfl⟩
  · rw [if_neg h, if_neg h]
    have : c.xmlOk = true := by
      cases hx : c.xmlOk
      · exact absurd hx h
      · rfl
    rw [this]
    exact ⟨rfl, by simp⟩

/-! ## Membership characterisation of the deletion check's node set -/

theorem descendants_mk (g : String) (a : List (String × String))
    (x : Option String) (cs : List XNode) :
    descendants (XNode.mk g a x cs) = descendantsL cs := rfl

theorem descendantsL_cons (c : XNode) (cs : List XNode) :
    descendantsL (c :: cs) = (c :: descendants c) ++ descendantsL cs := rfl

theorem tNodesUnderDelL_cons (u : Bool) (c : XNode) (cs : List XNode) :
    tNodesUnderDelL u (c :: cs) =
      tNodesUnderDel u c ++ tNodesUnderDelL u cs := rfl

theorem descendants_trans :
    (∀ c, ∀ d n, d ∈ descendants c → n ∈ descendants d → n ∈ descendants c) ∧
    (∀ cs, ∀ d n, d ∈ descendantsL cs → n ∈ descendants d → n ∈ descendantsL cs) := by
  refine xnode_mutual_ind _ _ ?_ ?_ ?_
  · intro g a x cs hq d n hd hn
    rw [descendants_mk] at hd ⊢
    exact hq d n hd hn
  · intro d n hd _
    simp [descendantsL] at hd
  · intro c cs hp hq d n hd hn
    rw [descendantsL_cons] at hd ⊢
    rw [List.mem_append] at hd ⊢
    cases hd with
    | inl h1 =>
      left
      rcases List.mem_cons.mp h1 with h2 | h2
      · subst h2
        exact List.mem_cons_of_mem _ hn
      · exact List.mem_cons_of_mem _ (hp d n h2 hn)
    | inr h1 =>
      right
      exact hq d n h1 hn

/-- The node set collected by the deletion scan is exactly: `w:t`-tagged
nodes having some `w:del`-tagged ancestor within the scanned forest
(`true` flag: already below a `w:del`; `false` flag: not yet). -/
theorem tNodesUnderDel_mem :
    (∀ c, ∀ n,
      (n ∈ tNodesUnderDel true c ↔
        n.tag = tTag ∧ (n = c ∨ n ∈ descendants c)) ∧
      (n ∈ tNodesUnderDel false c ↔
        n.tag = tTag ∧ ∃ d, (d = c ∨ d ∈ descendants c) ∧ d.tag = delTag ∧
          n ∈ descendants d)) ∧
    (∀ cs, ∀ n,
      (n ∈ tNodesUnderDelL true cs ↔ n.tag = tTag ∧ n ∈ descendantsL cs) ∧
      (n ∈ tNodesUnderDelL false cs ↔
        n.tag = tTag ∧ ∃ d, d ∈ descendantsL cs ∧ d.tag = delTag ∧
          n ∈ descendants d)) := by
  refine xnode_mutual_ind _ _ ?_ ?_ ?_
  · intro g a x cs hq n
    constructor
    · rw [tNodesUnderDel, Bool.true_or, Bool.true_and]
      constructor
      · intro hmem
        rw [List.mem_append] at hmem
        cases hmem with
        | inl h1 =>
          by_cases hg : (g == tTag) = true
          · rw [if_pos hg] at h1
            have hn := List.mem_singleton.mp h1
            subst hn
            exact ⟨eq_of_beq hg, Or.inl rfl⟩
          · rw [if_neg hg] at h1
            simp at h1
        | inr h1 =>
          have h2 := ((hq n).1).mp h1
          exact ⟨h2.1, Or.inr (by rw [descendants_mk]; exact h2.2)⟩
      · rintro ⟨htag, hloc⟩
        rw [List.mem_append]
        cases hloc with
        | inl h1 =>
          subst h1
          left
          rw [if_pos (by simp only [XNode.tag] at htag; rw [htag]; simp)]
          exact List.mem_singleton.mpr rfl
        | inr h1 =>
          right
          rw [descendants_mk] at h1
          exact ((hq n).1).mpr ⟨htag, h1⟩
    · rw [tNodesUnderDel, Bool.false_or, Bool.false_and]
      rw [if_neg (by simp)]
      rw [List.nil_append]
      by_cases hg : g = delTag
      · have hflag : (g == delTag) = true := by rw [hg]; simp
        rw [hflag]
        constructor
        · intro hmem
          have h2 := ((hq n).1).mp hmem
          refine ⟨h2.1, XNode.mk g a x cs, Or.inl rfl, ?_, ?_⟩
          · simp only [XNode.tag]
            exact hg
          · rw [descendants_mk]
            exact h2.2
        · rintro ⟨htag, d, hd1, _, hd3⟩
          apply ((hq n).1).mpr
          refine ⟨htag, ?_⟩
          cases hd1 with
          | inl h3 =>
            subst h3
            rw [descendants_mk] at hd3
            exact hd3
          | inr h3 =>
            exact descendants_trans.2 cs d n h3 hd3
      · have hflag : (g == delTag) = false := by
          rw [Bool.eq_false_iff]
          intro hcontra
          exact hg (eq_of_beq hcontra)
        rw [hflag]
        constructor
        · intro hmem
          have h2 := ((hq n).2).mp hmem
          obtain ⟨htag, d, hd1, hd2, hd3⟩ := h2
          exact ⟨htag, d, Or.inr (by rw [descendants_mk]; exact hd1), hd2, hd3⟩
        · rintro ⟨htag, d, hd1, hd2, hd3⟩
          apply ((hq n).2).mpr
          refine ⟨htag, d, ?_, hd2, hd3⟩
          cases hd1 with
          | inl h3 =>
            subst h3
            simp only [XNode.tag] at hd2
            exact absurd hd2 hg
          | inr h3 =>
            rw [descendants_mk] at h3
            exact h3
  · intro n
    constructor
    · constructor
      · intro hmem
        simp [tNodesUnderDelL] at hmem
      · rintro ⟨_, hloc⟩
        simp [descendantsL] at hloc
    · constructor
      · intro hmem
        simp [tNodesUnderDelL] at hmem
      · rintro ⟨_, d, hd1, _, _⟩
        simp [descendantsL] at hd1
  · intro c cs hp hq n
    constructor
    · rw [tNodesUnderDelL_cons, descendantsL_cons]
      rw [List.mem_append]
      constructor
      · intro hmem
        cases hmem with
        | inl h1 =>
          have h2 := ((hp n).1).mp h1
          refine ⟨h2.1, ?_⟩
          rw [List.mem_append]
          left
          cases h2.2 with
          | inl h3 => subst h3; exact List.mem_cons_self _ _
          | inr h3 => exact List.mem_cons_of_mem _ h3
        | inr h1 =>
          have h2 := ((hq n).1).mp h1
          refine ⟨h2.1, ?_⟩
          rw [List.mem_append]
          right
          exact h2.2
      · rintro ⟨htag, hloc⟩
        rw [List.mem_append] at hloc
        cases hloc with
        | inl h1 =>
          left
          rcases List.mem_cons.mp h1 with h2 | h2
          · exact ((hp n).1).mpr ⟨htag, Or.inl h2⟩
          · exact ((hp n).1).mpr ⟨htag, Or.inr h2⟩
        | inr h1 =>
          right
          exact ((hq n).1).mpr ⟨htag, h1⟩
    · rw [tNodesUnderDelL_cons, descendantsL_cons]
      rw [List.mem_append]
      constructor
      · intro hmem
        cases hmem with
        | inl h1 =>
          obtain ⟨htag, d, hd1, hd2, hd3⟩ := ((hp n).2).mp h1
          refine ⟨htag, d, ?_, hd2, hd3⟩
          rw [List.mem_append]
          left
          cases hd1 with
          | inl h3 => subst h3; exact List.mem_cons_self _ _
          | inr h3 => exact List.mem_cons_of_mem _ h3
        | inr h1 =>
          obtain ⟨htag, d, hd1, hd2, hd3⟩ := ((hq n).2).mp h1
          refine ⟨htag, d, ?_, hd2, hd3⟩
          rw [List.mem_append]
          right
          exact hd1
      · rintro ⟨htag, d, hd1, hd2, hd3⟩
        rw [List.mem_append] at hd1
        cases hd1 with
        | inl h1 =>
          left
          rcases List.mem_cons.mp h1 with h3 | h3
          · exact ((hp n).2).mpr ⟨htag, d, Or.inl h3, hd2, hd3⟩
          · exact ((hp n).2).mpr ⟨htag, d, Or.inr h3, hd2, hd3⟩
        | inr h1 =>
          right
          exact ((hq n).2).mpr ⟨htag, d, h1, hd2, hd3⟩

/-- C8 (confirmed): the deletion integrity check's node set is exactly
the `w:t` elements having a `w:del` ancestor at any depth below the
root; the error list is the (complete) list of those nodes' non-empty
texts — all violations are collected, none is dropped; and the tree
with exactly one deletion marker wrapping one ordinary-text node
`"hello"` yields exactly one violation. -/
theorem claim_C8 :
    (∀ root n, n ∈ tNodesUnderDelL false root.children ↔
      (n.tag = tTag ∧ ∃ d, d ∈ descendants root ∧ d.tag = delTag ∧
        n ∈ descendants d)) ∧
    (∀ root, validate_deletions_errors root =
      (tNodesUnderDelL false root.children).filterMap (fun n =>
        match n.text with
        | some s => if s ≠ "" then some s else none
        | none => none)) ∧
    validate_deletions_errors oneDelOneT = ["hello"] := by
  refine ⟨?_, fun _ => rfl, rfl⟩
  intro root n
  cases root with
  | mk g a x cs =>
    simp only [XNode.children, descendants_mk]
    exact (tNodesUnderDel_mem.2 cs n).2

/-- C9 (code bug): the whitespace check misses boundary whitespace when
the text contains an interior newline.  `"a\nb "` ends with a space and
lacks `xml:space="preserve"`, yet `re.match(r".*\s$", text)` cannot
reach that space (`.` does not match a newline, and `$` matches only at
the end or just before a trailing newline), so no violation is
reported, diverging from "flags exactly those ordinary text nodes whose
content starts or ends with a whitespace character".  The claim's
concrete cases do hold: `" hello"` without the property is flagged;
`"hello"` is never flagged, with or without the property. -/
theorem claim_C9_bug :
    endsWithWhitespace "a\nb " = true ∧
    matchEndWs "a\nb " = false ∧
    validate_whitespace_errors multilineWsDoc = [] ∧
    validate_whitespace_errors leadingSpaceDoc = [" hello"] ∧
    validate_whitespace_errors leadingSpacePreserveDoc = [] ∧
    validate_whitespace_errors plainTextDoc = [] ∧
    validate_whitespace_errors plainTextNoAttrDoc = [] :=
  ⟨rfl, rfl, rfl, rfl, rfl, rfl, rfl⟩
